import Mathlib

set_option linter.unusedSectionVars false
set_option linter.unusedVariables false

/-!
Shallow embedding of the string-graph transitive-overlap core
(`src/StringGraph/SGAlgorithms.cpp`).

The overlap/alignment ("Match") algebra and the sequence type are external
collaborators of the core, so they are abstracted into a `MatchOps`
structure; every definition below is parametric in those operations.
Vertices are identified by natural numbers; a graph is a list of vertices,
a sequence lookup, a list of directed edges, and the two global quality
thresholds.  C++ `std::map` / `std::set` keyed by `EdgeDesc` are embedded
as association lists with insert-only-if-absent semantics, which matches
`std::map::insert`.  The recursive explorations (`addOverlapsToSet`,
`enqueueEdges`) are embedded with an explicit fuel parameter; fuel
sufficiency is settled by the termination theorems below.
-/

namespace SGA

/-- Edge descriptor: target vertex + direction + strand-complement flag
(`EdgeDesc` in the source; equality is field-wise). -/
structure EdgeDesc where
  pVertex : Nat
  dir : Bool
  comp : Bool
deriving DecidableEq, Repr

/-- An overlap value: the ordered pair of vertex ids it was computed
between plus the alignment (`Overlap` in the source; the `match` field is
called `mtch` because `match` is a Lean keyword). -/
structure Overlap (M : Type) where
  id0 : Nat
  id1 : Nat
  mtch : M
deriving DecidableEq, Repr

/-- Operations of the external overlap/alignment algebra and graph-library
helpers (`Match::swap/infer/expand/doMatchesIntersect/countDifferences/
getMinOverlapLength`, `Match::coord[0].length` alias `getOverlapLength(0)`,
and `correctDir` from the graph library).  The core calls but does not
implement these, so they are abstract parameters of the embedding. -/
structure MatchOps (M Seq : Type) where
  swap : M → M
  infer : M → M → M
  expand : M → M
  doMatchesIntersect : M → M → Bool
  countDifferences : M → Seq → Seq → Int
  getMinOverlapLength : M → Int
  getOverlapLength0 : M → Int
  correctDir : Bool → Bool → Bool

/-- A directed edge of the string graph: start vertex, end vertex,
direction, complement flag and its overlap. -/
structure Edge (M : Type) where
  start : Nat
  endV : Nat
  dir : Bool
  comp : Bool
  ovr : Overlap M
deriving DecidableEq, Repr

/-- The string graph together with its global parameters
(`getMinOverlap`, `getErrorRate`). -/
structure Graph (M Seq : Type) where
  vertexIds : List Nat
  seqOf : Nat → Seq
  edges : List (Edge M)
  minOverlap : Int
  errorRate : Rat

/-- Element of the explore priority queue (`ExploreElement`). -/
structure ExploreElement (M : Type) where
  ed : EdgeDesc
  ovr : Overlap M
deriving DecidableEq, Repr

variable {M Seq : Type} [DecidableEq M]

/-- `EdgeDescOverlapMap`: association list keyed by `EdgeDesc`. -/
abbrev OMap (M : Type) := List (EdgeDesc × Overlap M)

/-- `map.count ed > 0` for the `EdgeDesc`-keyed map. -/
def omapMem (m : OMap M) (ed : EdgeDesc) : Bool :=
  m.any fun p => p.1 == ed

/-- `std::map::insert`: inserts only when the key is absent. -/
def omapInsert (m : OMap M) (ed : EdgeDesc) (o : Overlap M) : OMap M :=
  if omapMem m ed then m else m ++ [(ed, o)]

/-- The list of keys of a map. -/
def keysOf (m : OMap M) : List EdgeDesc :=
  m.map Prod.fst

/-- `std::set<EdgeDesc>::count > 0`. -/
def sMem (s : List EdgeDesc) (ed : EdgeDesc) : Bool :=
  s.any fun e => e == ed

/-- `std::set<EdgeDesc>::insert`. -/
def sInsert (s : List EdgeDesc) (ed : EdgeDesc) : List EdgeDesc :=
  if sMem s ed then s else s ++ [ed]

/-- `Edge::getDesc()`: descriptor of an edge (its end vertex, direction,
complement flag). -/
def Edge.getDesc (e : Edge M) : EdgeDesc :=
  ⟨e.endV, e.dir, e.comp⟩

/-- `Vertex::getEdges()`: all edges leaving a vertex. -/
def getEdges (g : Graph M Seq) (v : Nat) : List (Edge M) :=
  g.edges.filter fun e => e.start == v

/-- `Vertex::getEdges(dir)`: edges leaving a vertex in one direction. -/
def getEdgesDir (g : Graph M Seq) (v : Nat) (d : Bool) : List (Edge M) :=
  g.edges.filter fun e => e.start == v && e.dir == d

/-- `Overlap::swap()`: interchange the two sides. -/
def oswap (ops : MatchOps M Seq) (o : Overlap M) : Overlap M :=
  ⟨o.id1, o.id0, ops.swap o.mtch⟩

/-- `Overlap::getOverlapLength(0)`. -/
def ovlLen0 (ops : MatchOps M Seq) (o : Overlap M) : Int :=
  ops.getOverlapLength0 o.mtch

/-- `SGAlgorithms::calcErrorRate`: differences between the two sequences
over the alignment divided by the alignment's shorter-side length
(source lines 171-175). -/
def calcErrorRate (g : Graph M Seq) (ops : MatchOps M Seq)
    (pX pY : Nat) (ovrXY : Overlap M) : Rat :=
  Rat.divInt (ops.countDifferences ovrXY.mtch (g.seqOf pX) (g.seqOf pY))
    (ops.getMinOverlapLength ovrXY.mtch)

/-- `SGAlgorithms::inferTransitiveOverlap` (source lines 180-194):
swap X→Y into Y→X, compose with Y→Z, expand, and pair the outer ids. -/
def inferTransitiveOverlap (ops : MatchOps M Seq)
    (ovrXY ovrYZ : Overlap M) : Overlap M :=
  ⟨ovrXY.id0, ovrYZ.id1, ops.expand (ops.infer (ops.swap ovrXY.mtch) ovrYZ.mtch)⟩

/-- `SGAlgorithms::inferTransitiveEdgeDesc` (source lines 200-207). -/
def inferTransitiveEdgeDesc (edXY edYZ : EdgeDesc) : EdgeDesc :=
  ⟨edYZ.pVertex, edXY.dir, if edYZ.comp then !edXY.comp else edXY.comp⟩

/-- `SGAlgorithms::hasTransitiveOverlap` (source lines 210-216). -/
def hasTransitiveOverlap (ops : MatchOps M Seq) (ovrXY ovrYZ : Overlap M) : Bool :=
  ops.doMatchesIntersect (ops.swap ovrXY.mtch) ovrYZ.mtch

/-- Modelled from the spec: `isErrorRateAcceptable` is declared in the
repository's headers, which are not under the given sources; per the
spec's acceptance predicate an error rate is acceptable iff it is at most
the configured maximum. -/
def isErrorRateAcceptable (er maxER : Rat) : Bool :=
  decide (er ≤ maxER)

/-- The inferred descriptor for the X→Z candidate produced by one
neighbor edge (the local `edXZ` of the source loops). -/
def edXZof (edXY : EdgeDesc) (e : Edge M) : EdgeDesc :=
  inferTransitiveEdgeDesc edXY e.getDesc

/-- The inferred overlap for the X→Z candidate produced by one neighbor
edge (the local `ovrXZ` of the source loops). -/
def ovrXZof (ops : MatchOps M Seq) (ovrXY : Overlap M) (e : Edge M) : Overlap M :=
  inferTransitiveOverlap ops ovrXY e.ovr

/-- `SGAlgorithms::addOverlapsToSet` (source lines 133-168), embedded
with explicit recursion fuel.  The loop body over `pY`'s neighbor edges
is threaded through `List.foldl`; each accepted candidate is inserted
and then recursively expanded, exactly as in the source. -/
def addOverlapsToSetF (g : Graph M Seq) (ops : MatchOps M Seq)
    (maxER : Rat) (minLength : Int) :
    Nat → Nat → EdgeDesc → Overlap M → OMap M → OMap M
  | 0, _, _, _, outMap => outMap
  | fuel + 1, pX, edXY, ovrXY, outMap =>
    (getEdgesDir g edXY.pVertex (ops.correctDir edXY.dir edXY.comp)).foldl
      (fun m pEdgeYZ =>
        if pEdgeYZ.endV ≠ pX ∧ omapMem m (edXZof edXY pEdgeYZ) = false then
          if hasTransitiveOverlap ops ovrXY pEdgeYZ.ovr then
            if isErrorRateAcceptable
                  (calcErrorRate g ops pX pEdgeYZ.endV (ovrXZof ops ovrXY pEdgeYZ)) maxER = true ∧
                ovlLen0 ops (ovrXZof ops ovrXY pEdgeYZ) ≥ minLength then
              addOverlapsToSetF g ops maxER minLength fuel pX
                (edXZof edXY pEdgeYZ) (ovrXZof ops ovrXY pEdgeYZ)
                (omapInsert m (edXZof edXY pEdgeYZ) (ovrXZof ops ovrXY pEdgeYZ))
            else m
          else m
        else m)
      outMap

/-- The loop body of `addOverlapsToSet` for one neighbor edge, at a given
recursion fuel (identical to the lambda inside `addOverlapsToSetF`). -/
def aosStep (g : Graph M Seq) (ops : MatchOps M Seq) (maxER : Rat) (minLength : Int)
    (fuel pX : Nat) (edXY : EdgeDesc) (ovrXY : Overlap M)
    (m : OMap M) (pEdgeYZ : Edge M) : OMap M :=
  if pEdgeYZ.endV ≠ pX ∧ omapMem m (edXZof edXY pEdgeYZ) = false then
    if hasTransitiveOverlap ops ovrXY pEdgeYZ.ovr then
      if isErrorRateAcceptable
            (calcErrorRate g ops pX pEdgeYZ.endV (ovrXZof ops ovrXY pEdgeYZ)) maxER = true ∧
          ovlLen0 ops (ovrXZof ops ovrXY pEdgeYZ) ≥ minLength then
        addOverlapsToSetF g ops maxER minLength fuel pX
          (edXZof edXY pEdgeYZ) (ovrXZof ops ovrXY pEdgeYZ)
          (omapInsert m (edXZof edXY pEdgeYZ) (ovrXZof ops ovrXY pEdgeYZ))
      else m
    else m
  else m

/-- `SGAlgorithms::enqueueEdges` (source lines 98-130) in the non-null
seen-set case, which is the only way the source ever calls it (from
`remodelVertexForExcision`).  State is the pair (queue, seen set); the
queue is kept in push order, the priority ordering is applied at pop
time by `qSelect`.  Embedded with explicit recursion fuel. -/
def enqueueEdgesF (g : Graph M Seq) (ops : MatchOps M Seq) :
    Nat → Nat → EdgeDesc → Overlap M →
      List (ExploreElement M) × List EdgeDesc →
      List (ExploreElement M) × List EdgeDesc
  | 0, _, _, _, qs => qs
  | fuel + 1, pX, edXY, ovrXY, qs =>
    (getEdgesDir g edXY.pVertex (ops.correctDir edXY.dir edXY.comp)).foldl
      (fun qs pEdgeYZ =>
        if pEdgeYZ.endV ≠ pX then
          if sMem qs.2 (edXZof edXY pEdgeYZ) = false then
            if hasTransitiveOverlap ops ovrXY pEdgeYZ.ovr then
              enqueueEdgesF g ops fuel pX
                (edXZof edXY pEdgeYZ) (ovrXZof ops ovrXY pEdgeYZ)
                (qs.1 ++ [⟨edXZof edXY pEdgeYZ, ovrXZof ops ovrXY pEdgeYZ⟩],
                 sInsert qs.2 (edXZof edXY pEdgeYZ))
            else qs
          else qs
        else qs)
      qs

/-- The loop body of `enqueueEdges` for one neighbor edge, at a given
recursion fuel (identical to the lambda inside `enqueueEdgesF`). -/
def enqStep (g : Graph M Seq) (ops : MatchOps M Seq) (fuel pX : Nat)
    (edXY : EdgeDesc) (ovrXY : Overlap M)
    (qs : List (ExploreElement M) × List EdgeDesc) (pEdgeYZ : Edge M) :
    List (ExploreElement M) × List EdgeDesc :=
  if pEdgeYZ.endV ≠ pX then
    if sMem qs.2 (edXZof edXY pEdgeYZ) = false then
      if hasTransitiveOverlap ops ovrXY pEdgeYZ.ovr then
        enqueueEdgesF g ops fuel pX
          (edXZof edXY pEdgeYZ) (ovrXZof ops ovrXY pEdgeYZ)
          (qs.1 ++ [⟨edXZof edXY pEdgeYZ, ovrXZof ops ovrXY pEdgeYZ⟩],
           sInsert qs.2 (edXZof edXY pEdgeYZ))
      else qs
    else qs
  else qs

/-- `SGAlgorithms::constructCompleteOverlapMap` (source lines 263-278):
seed the map with every direct edge of the vertex and recursively add the
reachable overlaps. -/
def constructCompleteOverlapMap (g : Graph M Seq) (ops : MatchOps M Seq)
    (fuel pVertex : Nat) (maxER : Rat) (minLength : Int) : OMap M :=
  (getEdges g pVertex).foldl
    (fun outMap pEdge =>
      addOverlapsToSetF g ops maxER minLength fuel pVertex
        pEdge.getDesc pEdge.ovr (omapInsert outMap pEdge.getDesc pEdge.ovr))
    []

/-- The move test of the partition scan (source lines 314-337): an
irreducible entry X→Z is moved when it is not the popped entry X→Y
itself, has the same direction, is strictly shorter, and the inferred
Y→Z overlap passes the error/length thresholds. -/
def moveCondition (g : Graph M Seq) (ops : MatchOps M Seq) (maxER : Rat)
    (minLength : Int) (edXY : EdgeDesc) (ovrXY : Overlap M)
    (p : EdgeDesc × Overlap M) : Bool :=
  !(p.1 == edXY) && (edXY.dir == p.1.dir) &&
    decide (ovlLen0 ops ovrXY > ovlLen0 ops p.2) &&
    (isErrorRateAcceptable
        (calcErrorRate g ops edXY.pVertex p.1.pVertex
          (inferTransitiveOverlap ops (oswap ops ovrXY) p.2)) maxER &&
      decide (ovlLen0 ops (inferTransitiveOverlap ops (oswap ops ovrXY) p.2) ≥ minLength))

/-- The inner scan of `constructPartitionedOverlapMap` (source lines
311-349): walk the irreducible map once for the popped overlap X→Y,
moving each matching entry into the transitive map. -/
def scanLoop (g : Graph M Seq) (ops : MatchOps M Seq) (maxER : Rat)
    (minLength : Int) (edXY : EdgeDesc) (ovrXY : Overlap M) :
    List (EdgeDesc × Overlap M) → OMap M → OMap M × OMap M
  | [], tMap => ([], tMap)
  | p :: rest, tMap =>
    if moveCondition g ops maxER minLength edXY ovrXY p then
      scanLoop g ops maxER minLength edXY ovrXY rest (omapInsert tMap p.1 p.2)
    else
      let pr := scanLoop g ops maxER minLength edXY ovrXY rest tMap
      (p :: pr.1, pr.2)

/-- Modelled from the spec: the priority queues (`EDOPairQueue`,
`ExplorePriorityQueue`) are declared in the repository's headers, which
are not under the given sources; per the spec they order by overlap
length, longest first, with a deterministic tie-break.  `qSelect`
extracts the earliest-pushed element of maximal key and the remaining
queue. -/
def qSelect {α : Type} (len : α → Int) : List α → Option (α × List α)
  | [] => none
  | a :: rest =>
    match qSelect len rest with
    | none => some (a, [])
    | some (b, rest') => if len b > len a then some (b, a :: rest') else some (a, rest)

/-- The pop-and-scan loop of `constructPartitionedOverlapMap` (source
lines 301-350).  The fuel equals the initial queue length at the call
site; since every iteration pops exactly one element and pushes none,
this runs the loop to queue exhaustion exactly as the source does. -/
def partitionLoop (g : Graph M Seq) (ops : MatchOps M Seq) (maxER : Rat)
    (minLength : Int) :
    Nat → List (EdgeDesc × Overlap M) → OMap M → OMap M → OMap M × OMap M
  | 0, _, irr, tMap => (irr, tMap)
  | n + 1, queue, irr, tMap =>
    match qSelect (fun p => ovlLen0 ops p.2) queue with
    | none => (irr, tMap)
    | some (edoPair, queue') =>
      let pr := scanLoop g ops maxER minLength edoPair.1 edoPair.2 irr tMap
      partitionLoop g ops maxER minLength n queue' pr.1 pr.2

/-- `SGAlgorithms::constructPartitionedOverlapMap` (source lines
284-351): build the complete overlap map, load it into the
longest-first queue, and run the pop-and-scan loop. -/
def constructPartitionedOverlapMap (g : Graph M Seq) (ops : MatchOps M Seq)
    (fuel pVertex : Nat) (maxER : Rat) (minLength : Int) : OMap M × OMap M :=
  let irreducibleMap := constructCompleteOverlapMap g ops fuel pVertex maxER minLength
  let overlapQueue := irreducibleMap
  partitionLoop g ops maxER minLength overlapQueue.length overlapQueue irreducibleMap []

/-- Modelled from the spec: `SGUtil::createEdges` lives outside the given
sources; per the spec's edge-creation contract (and the assertion
`pCreatedEdge->getDesc() == currElem.ed` at the call site) it
materializes in the graph a new edge for the overlap whose descriptor
equals the expected descriptor.  The complementary twin edge is the
graph accessors' concern and is not modelled. -/
def createEdges (g : Graph M Seq) (pVertex : Nat) (ed : EdgeDesc)
    (o : Overlap M) : Graph M Seq :=
  { g with edges := g.edges ++ [⟨pVertex, ed.pVertex, ed.dir, ed.comp, o⟩] }

/-- One iteration of the explore-queue loop of
`remodelVertexForExcision` (source lines 68-93): skip elements whose
descriptor is already excluded; otherwise compute the error rate, and if
the graph's global thresholds pass, materialize the edge and extend the
exclusion set with everything reachable from the new neighbor. -/
def excisionStep (ops : MatchOps M Seq) (fuel pVertex : Nat)
    (g : Graph M Seq) (exclusionSet : OMap M) (currElem : ExploreElement M) :
    Graph M Seq × OMap M :=
  if omapMem exclusionSet currElem.ed then (g, exclusionSet)
  else
    if ops.getMinOverlapLength currElem.ovr.mtch ≥ g.minOverlap then
      if isErrorRateAcceptable
          (calcErrorRate g ops pVertex currElem.ed.pVertex currElem.ovr)
          g.errorRate then
        (createEdges g pVertex currElem.ed currElem.ovr,
         addOverlapsToSetF (createEdges g pVertex currElem.ed currElem.ovr)
           ops 1 0 fuel pVertex currElem.ed currElem.ovr exclusionSet)
      else (g, exclusionSet)
    else (g, exclusionSet)

/-- The explore-queue loop of `remodelVertexForExcision`, popping
longest-overlap-first.  The fuel equals the queue length at the call
site; the loop never pushes, so this runs to queue exhaustion. -/
def excisionLoop (ops : MatchOps M Seq) (fuel pVertex : Nat) :
    Nat → List (ExploreElement M) → Graph M Seq × OMap M → Graph M Seq × OMap M
  | 0, _, st => st
  | n + 1, queue, st =>
    match qSelect (fun e => ovlLen0 ops e.ovr) queue with
    | none => st
    | some (currElem, queue') =>
      excisionLoop ops fuel pVertex n queue'
        (excisionStep ops fuel pVertex st.1 st.2 currElem)

/-- `SGAlgorithms::remodelVertexForExcision` (source lines 20-94): build
the exclusion set from the doomed edge's overlap and everything
reachable through the vertex's other edges, seed the explore queue from
the doomed edge's neighbor, and process it longest-overlap-first. -/
def remodelVertexForExcision (g : Graph M Seq) (ops : MatchOps M Seq)
    (fuel pVertex : Nat) (pDeleteEdge : Edge M) : Graph M Seq × OMap M :=
  let ovrXY := pDeleteEdge.ovr
  let edXY := pDeleteEdge.getDesc
  let exclusionSet : OMap M := omapInsert [] edXY ovrXY
  let exclusionSet := (getEdges g pVertex).foldl
    (fun es pEdge =>
      if pEdge = pDeleteEdge then es
      else
        addOverlapsToSetF g ops 1 0 fuel pVertex pEdge.getDesc pEdge.ovr
          (omapInsert es pEdge.getDesc pEdge.ovr))
    exclusionSet
  let seenEdges := keysOf exclusionSet
  let qs := enqueueEdgesF g ops fuel pVertex edXY ovrXY ([], seenEdges)
  excisionLoop ops fuel pVertex qs.1.length qs.1 (g, exclusionSet)

/-- The end vertices of the graph's edges: every descriptor key ever
inserted by the recursive expansions targets one of these. -/
def endsOf (g : Graph M Seq) : Finset Nat :=
  (g.edges.map Edge.endV).toFinset

/-- The finite space of edge descriptors the expansions can create. -/
def univDescs (g : Graph M Seq) : Finset EdgeDesc :=
  (endsOf g).biUnion fun v =>
    {⟨v, false, false⟩, ⟨v, false, true⟩, ⟨v, true, false⟩, ⟨v, true, true⟩}

/-- Number of descriptors of the finite key space still absent from the
map: the termination measure of `addOverlapsToSet`. -/
def aosMeasure (g : Graph M Seq) (m : OMap M) : Nat :=
  (univDescs g \ (keysOf m).toFinset).card

/-- Number of descriptors of the finite key space still absent from the
seen set: the termination measure of `enqueueEdges`. -/
def seenMeasure (g : Graph M Seq) (s : List EdgeDesc) : Nat :=
  (univDescs g \ s.toFinset).card

/-- The acceptance condition of one `addOverlapsToSet` iteration: the
neighbor is not the query vertex, the candidate key is absent, the
matches intersect, and the inferred overlap passes both thresholds. -/
def aosCond (g : Graph M Seq) (ops : MatchOps M Seq) (maxER : Rat)
    (minLength : Int) (pX : Nat) (edXY : EdgeDesc) (ovrXY : Overlap M)
    (m : OMap M) (e : Edge M) : Prop :=
  e.endV ≠ pX ∧ omapMem m (edXZof edXY e) = false ∧
    hasTransitiveOverlap ops ovrXY e.ovr = true ∧
    isErrorRateAcceptable
      (calcErrorRate g ops pX e.endV (ovrXZof ops ovrXY e)) maxER = true ∧
    ovlLen0 ops (ovrXZof ops ovrXY e) ≥ minLength

instance aosCondDecidable (g : Graph M Seq) (ops : MatchOps M Seq)
    (maxER : Rat) (minLength : Int) (pX : Nat) (edXY : EdgeDesc)
    (ovrXY : Overlap M) (m : OMap M) (e : Edge M) :
    Decidable (aosCond g ops maxER minLength pX edXY ovrXY m e) := by
  unfold aosCond
  exact inferInstance

/-- The push condition of one `enqueueEdges` iteration: the neighbor is
not the query vertex, the candidate descriptor is unseen, and the
matches intersect. -/
def enqCond (ops : MatchOps M Seq) (pX : Nat) (edXY : EdgeDesc)
    (ovrXY : Overlap M) (s : List EdgeDesc) (e : Edge M) : Prop :=
  e.endV ≠ pX ∧ sMem s (edXZof edXY e) = false ∧
    hasTransitiveOverlap ops ovrXY e.ovr = true

/-! ### Concrete instances used by witnesses and counterexamples

A small executable instantiation of the abstract match algebra: a match
is its own length (`M := Nat`), sequences are trivial, inference takes
the shorter length, and all matches intersect. -/

def cOps : MatchOps Nat Nat where
  swap := id
  infer := fun a b => min a b
  expand := id
  doMatchesIntersect := fun _ _ => true
  countDifferences := fun _ _ _ => 0
  getMinOverlapLength := fun m => m
  getOverlapLength0 := fun m => m
  correctDir := fun d _ => d

/-- Variant of `cOps` in which no two matches intersect. -/
def cOpsNoInt : MatchOps Nat Nat :=
  { cOps with doMatchesIntersect := fun _ _ => false }

/-- Variant of `cOps` in which every inferred match has length zero. -/
def cOpsZero : MatchOps Nat Nat :=
  { cOps with infer := fun _ _ => 0 }

/-- A vertex 0 with two same-direction neighbors, overlap lengths 5 and 3. -/
def cG2 : Graph Nat Nat where
  vertexIds := [0, 1, 2]
  seqOf := fun _ => 0
  edges := [⟨0, 1, false, false, ⟨0, 1, 5⟩⟩, ⟨0, 2, false, false, ⟨0, 2, 3⟩⟩]
  minOverlap := 1
  errorRate := 1

/-- A chain 0 → 1 → 2 with overlap lengths 5 and 3. -/
def cG3 : Graph Nat Nat where
  vertexIds := [0, 1, 2]
  seqOf := fun _ => 0
  edges := [⟨0, 1, false, false, ⟨0, 1, 5⟩⟩, ⟨1, 2, false, false, ⟨1, 2, 3⟩⟩]
  minOverlap := 1
  errorRate := 1

/-- A pair 0 → 1 with the complementary edge 1 → 0 present. -/
def cGBack : Graph Nat Nat where
  vertexIds := [0, 1]
  seqOf := fun _ => 0
  edges := [⟨0, 1, false, false, ⟨0, 1, 5⟩⟩, ⟨1, 0, false, false, ⟨1, 0, 4⟩⟩]
  minOverlap := 1
  errorRate := 1

/-! ### Instrumented twins that log the algebra calls

To settle the claims about call sites of `inferTransitiveOverlap` and
`calcErrorRate`, the three functions that contain those call sites are
repeated with an explicit log of the arguments passed to the two
external calls.  The control flow is the same as in the uninstrumented
embeddings; `aosL_fst` and `enqL_fst` prove the agreement. -/

structure CallLog (M : Type) where
  inferCalls : List (Overlap M × Overlap M)
  erCalls : List (Overlap M)
deriving DecidableEq, Repr

/-- `addOverlapsToSet` with a log of the `(ovrXY, ovrYZ)` pairs passed to
`inferTransitiveOverlap` (source line 156) and of the inferred overlaps
passed to `calcErrorRate` (source line 159). -/
def addOverlapsToSetL (g : Graph M Seq) (ops : MatchOps M Seq)
    (maxER : Rat) (minLength : Int) :
    Nat → Nat → EdgeDesc → Overlap M → OMap M × CallLog M → OMap M × CallLog M
  | 0, _, _, _, st => st
  | fuel + 1, pX, edXY, ovrXY, st =>
    (getEdgesDir g edXY.pVertex (ops.correctDir edXY.dir edXY.comp)).foldl
      (fun st pEdgeYZ =>
        if pEdgeYZ.endV ≠ pX ∧ omapMem st.1 (edXZof edXY pEdgeYZ) = false then
          if hasTransitiveOverlap ops ovrXY pEdgeYZ.ovr then
            if isErrorRateAcceptable
                  (calcErrorRate g ops pX pEdgeYZ.endV (ovrXZof ops ovrXY pEdgeYZ)) maxER = true ∧
                ovlLen0 ops (ovrXZof ops ovrXY pEdgeYZ) ≥ minLength then
              addOverlapsToSetL g ops maxER minLength fuel pX
                (edXZof edXY pEdgeYZ) (ovrXZof ops ovrXY pEdgeYZ)
                (omapInsert st.1 (edXZof edXY pEdgeYZ) (ovrXZof ops ovrXY pEdgeYZ),
                 ⟨st.2.inferCalls ++ [(ovrXY, pEdgeYZ.ovr)],
                  st.2.erCalls ++ [ovrXZof ops ovrXY pEdgeYZ]⟩)
            else
              (st.1,
               ⟨st.2.inferCalls ++ [(ovrXY, pEdgeYZ.ovr)],
                st.2.erCalls ++ [ovrXZof ops ovrXY pEdgeYZ]⟩)
          else st
        else st)
      st

/-- `enqueueEdges` with a log of the `(ovrXY, ovrYZ)` pairs passed to
`inferTransitiveOverlap` (source line 120). -/
def enqueueEdgesL (g : Graph M Seq) (ops : MatchOps M Seq) :
    Nat → Nat → EdgeDesc → Overlap M →
      (List (ExploreElement M) × List EdgeDesc) × List (Overlap M × Overlap M) →
      (List (ExploreElement M) × List EdgeDesc) × List (Overlap M × Overlap M)
  | 0, _, _, _, st => st
  | fuel + 1, pX, edXY, ovrXY, st =>
    (getEdgesDir g edXY.pVertex (ops.correctDir edXY.dir edXY.comp)).foldl
      (fun st pEdgeYZ =>
        if pEdgeYZ.endV ≠ pX then
          if sMem st.1.2 (edXZof edXY pEdgeYZ) = false then
            if hasTransitiveOverlap ops ovrXY pEdgeYZ.ovr then
              enqueueEdgesL g ops fuel pX
                (edXZof edXY pEdgeYZ) (ovrXZof ops ovrXY pEdgeYZ)
                ((st.1.1 ++ [⟨edXZof edXY pEdgeYZ, ovrXZof ops ovrXY pEdgeYZ⟩],
                  sInsert st.1.2 (edXZof edXY pEdgeYZ)),
                 st.2 ++ [(ovrXY, pEdgeYZ.ovr)])
            else st
          else st
        else st)
      st

/-- The calls of the partition scan (source lines 311-337): whenever the
popped entry X→Y and an irreducible entry X→Z pass the self/direction/
length tests, the scan immediately calls `inferTransitiveOverlap` on the
swapped X→Y overlap and X→Z (line 324, with no `hasTransitiveOverlap`
guard) and then `calcErrorRate` on the inferred Y→Z overlap (line 327). -/
def scanLoopCalls (g : Graph M Seq) (ops : MatchOps M Seq) (edXY : EdgeDesc)
    (ovrXY : Overlap M) : List (EdgeDesc × Overlap M) → CallLog M → CallLog M
  | [], lg => lg
  | p :: rest, lg =>
    if !(p.1 == edXY) && (edXY.dir == p.1.dir) &&
        decide (ovlLen0 ops ovrXY > ovlLen0 ops p.2) then
      scanLoopCalls g ops edXY ovrXY rest
        ⟨lg.inferCalls ++ [(oswap ops ovrXY, p.2)],
         lg.erCalls ++ [inferTransitiveOverlap ops (oswap ops ovrXY) p.2]⟩
    else scanLoopCalls g ops edXY ovrXY rest lg

/-! ### Basic lemmas about the map/set embedding -/

theorem calcErrorRate_eq_div (g : Graph M Seq) (ops : MatchOps M Seq)
    (pX pY : Nat) (ovrXY : Overlap M) :
    calcErrorRate g ops pX pY ovrXY =
      ((ops.countDifferences ovrXY.mtch (g.seqOf pX) (g.seqOf pY) : Int) : Rat) /
        ((ops.getMinOverlapLength ovrXY.mtch : Int) : Rat) :=
  Rat.divInt_eq_div _ _

theorem addF_succ (g : Graph M Seq) (ops : MatchOps M Seq) (maxER : Rat)
    (minLength : Int) (fuel pX : Nat) (edXY : EdgeDesc) (ovrXY : Overlap M)
    (outMap : OMap M) :
    addOverlapsToSetF g ops maxER minLength (fuel + 1) pX edXY ovrXY outMap =
      (getEdgesDir g edXY.pVertex (ops.correctDir edXY.dir edXY.comp)).foldl
        (aosStep g ops maxER minLength fuel pX edXY ovrXY) outMap :=
  rfl

theorem enqF_succ (g : Graph M Seq) (ops : MatchOps M Seq) (fuel pX : Nat)
    (edXY : EdgeDesc) (ovrXY : Overlap M)
    (qs : List (ExploreElement M) × List EdgeDesc) :
    enqueueEdgesF g ops (fuel + 1) pX edXY ovrXY qs =
      (getEdgesDir g edXY.pVertex (ops.correctDir edXY.dir edXY.comp)).foldl
        (enqStep g ops fuel pX edXY ovrXY) qs :=
  rfl

theorem omapMem_iff (m : OMap M) (ed : EdgeDesc) :
    omapMem m ed = true ↔ ed ∈ keysOf m := by
  simp [omapMem, keysOf, List.any_eq_true, List.mem_map]

theorem omapMem_false_iff (m : OMap M) (ed : EdgeDesc) :
    omapMem m ed = false ↔ ed ∉ keysOf m := by
  rw [← omapMem_iff]
  cases h : omapMem m ed <;> simp [h]

theorem keysOf_append (m m' : OMap M) :
    keysOf (m ++ m') = keysOf m ++ keysOf m' := by
  simp [keysOf]

theorem mem_keysOf_of_mem {m : OMap M} {p : EdgeDesc × Overlap M}
    (h : p ∈ m) : p.1 ∈ keysOf m :=
  List.mem_map.mpr ⟨p, h, rfl⟩

theorem keysOf_omapInsert_of_not_mem {m : OMap M} {ed : EdgeDesc}
    {o : Overlap M} (h : omapMem m ed = false) :
    keysOf (omapInsert m ed o) = keysOf m ++ [ed] := by
  simp [omapInsert, h, keysOf]

theorem omapInsert_keys_mono {m : OMap M} {ed' : EdgeDesc}
    (ed : EdgeDesc) (o : Overlap M) (h : ed' ∈ keysOf m) :
    ed' ∈ keysOf (omapInsert m ed o) := by
  unfold omapInsert
  split
  · exact h
  · rw [keysOf_append]
    exact List.mem_append_left _ h

theorem mem_keysOf_omapInsert_self (m : OMap M) (ed : EdgeDesc) (o : Overlap M) :
    ed ∈ keysOf (omapInsert m ed o) := by
  unfold omapInsert
  split
  · next h => exact (omapMem_iff m ed).mp h
  · rw [keysOf_append]
    exact List.mem_append_right _ (by simp [keysOf])

theorem keysOf_omapInsert_sub {m : OMap M} {ed' : EdgeDesc}
    {ed : EdgeDesc} {o : Overlap M}
    (h : ed' ∈ keysOf (omapInsert m ed o)) : ed' ∈ keysOf m ∨ ed' = ed := by
  unfold omapInsert at h
  split at h
  · exact Or.inl h
  · rw [keysOf_append] at h
    rcases List.mem_append.mp h with h | h
    · exact Or.inl h
    · right
      simpa [keysOf] using h

theorem nodup_keys_omapInsert {m : OMap M} (ed : EdgeDesc) (o : Overlap M)
    (h : (keysOf m).Nodup) : (keysOf (omapInsert m ed o)).Nodup := by
  unfold omapInsert
  split
  · exact h
  · next hmem =>
    rw [keysOf_append]
    refine List.Nodup.append h (by simp [keysOf]) ?_
    intro x hx hx'
    have : x = ed := by simpa [keysOf] using hx'
    subst this
    exact (omapMem_false_iff m x).mp (Bool.eq_false_iff.mpr hmem) hx

theorem sMem_iff (s : List EdgeDesc) (ed : EdgeDesc) :
    sMem s ed = true ↔ ed ∈ s := by
  simp [sMem, List.any_eq_true]

theorem sMem_false_iff (s : List EdgeDesc) (ed : EdgeDesc) :
    sMem s ed = false ↔ ed ∉ s := by
  rw [← sMem_iff]
  cases h : sMem s ed <;> simp [h]

theorem sInsert_of_not_mem {s : List EdgeDesc} {ed : EdgeDesc}
    (h : sMem s ed = false) : sInsert s ed = s ++ [ed] := by
  simp [sInsert, h]

theorem sInsert_mono {s : List EdgeDesc} {ed' : EdgeDesc} (ed : EdgeDesc)
    (h : ed' ∈ s) : ed' ∈ sInsert s ed := by
  unfold sInsert
  split
  · exact h
  · exact List.mem_append_left _ h

theorem sInsert_sub {s : List EdgeDesc} {ed' ed : EdgeDesc}
    (h : ed' ∈ sInsert s ed) : ed' ∈ s ∨ ed' = ed := by
  unfold sInsert at h
  split at h
  · exact Or.inl h
  · rcases List.mem_append.mp h with h | h
    · exact Or.inl h
    · right
      simpa using h

/-! ### Generic fold lemmas -/

theorem foldl_invariant {α β : Type} (P : β → Prop) (f : β → α → β) :
    ∀ (l : List α) (b : β), P b → (∀ b' a, a ∈ l → P b' → P (f b' a)) →
      P (l.foldl f b)
  | [], b, hb, _ => hb
  | a :: l, b, hb, hstep =>
    foldl_invariant P f l (f b a) (hstep b a (List.mem_cons_self a l) hb)
      fun b' a' ha' => hstep b' a' (List.mem_cons_of_mem a ha')

theorem foldl_congr_rel {α β : Type} (P : β → Prop) (f f' : β → α → β) :
    ∀ (l : List α) (b : β), P b →
      (∀ b' a, a ∈ l → P b' → f b' a = f' b' a ∧ P (f b' a)) →
      l.foldl f b = l.foldl f' b
  | [], _, _, _ => rfl
  | a :: l, b, hb, hstep => by
    have h := hstep b a (List.mem_cons_self a l) hb
    simp only [List.foldl_cons, h.1]
    exact foldl_congr_rel P f f' l (f' b a) (h.1 ▸ h.2)
      fun b' a' ha' => hstep b' a' (List.mem_cons_of_mem a ha')

theorem foldl_rel {α β γ : Type} (R : β → γ → Prop) (f : β → α → β)
    (f' : γ → α → γ) :
    ∀ (l : List α) (b : β) (c : γ), R b c →
      (∀ b' c' a, a ∈ l → R b' c' → R (f b' a) (f' c' a)) →
      R (l.foldl f b) (l.foldl f' c)
  | [], _, _, h, _ => h
  | a :: l, b, c, h, hstep =>
    foldl_rel R f f' l (f b a) (f' c a)
      (hstep b c a (List.mem_cons_self a l) h)
      fun b' c' a' ha' => hstep b' c' a' (List.mem_cons_of_mem a ha')

/-! ### Queue selection lemmas -/

theorem qSelect_mem {α : Type} (len : α → Int) :
    ∀ {l : List α} {a : α} {rest : List α},
      qSelect len l = some (a, rest) → a ∈ l ∧ ∀ x ∈ rest, x ∈ l
  | [], a, rest, h => by simp [qSelect] at h
  | b :: l, a, rest, h => by
    rw [qSelect] at h
    cases hq : qSelect len l with
    | none =>
      rw [hq] at h
      cases h
      constructor
      · exact List.mem_cons_self _ _
      · intro x hx
        simp at hx
    | some pr =>
      rw [hq] at h
      obtain ⟨c, rest'⟩ := pr
      have hc := qSelect_mem len hq
      by_cases hlt : len c > len b
      · simp only [hlt, if_pos] at h
        cases h
        constructor
        · exact List.mem_cons_of_mem _ hc.1
        · intro x hx
          rcases List.mem_cons.mp hx with rfl | hx
          · exact List.mem_cons_self _ _
          · exact List.mem_cons_of_mem _ (hc.2 x hx)
      · simp only [hlt, if_neg, not_false_iff] at h
        cases h
        constructor
        · exact List.mem_cons_self _ _
        · intro x hx
          exact List.mem_cons_of_mem _ hx

/-! ### The finite descriptor space and the termination measures -/

theorem mem_edges_of_getEdgesDir {g : Graph M Seq} {v : Nat} {d : Bool}
    {e : Edge M} (h : e ∈ getEdgesDir g v d) : e ∈ g.edges :=
  List.mem_of_mem_filter h

theorem mem_edges_of_getEdges {g : Graph M Seq} {v : Nat}
    {e : Edge M} (h : e ∈ getEdges g v) : e ∈ g.edges :=
  List.mem_of_mem_filter h

theorem mem_endsOf {g : Graph M Seq} {e : Edge M} (h : e ∈ g.edges) :
    e.endV ∈ endsOf g := by
  simp only [endsOf, List.mem_toFinset, List.mem_map]
  exact ⟨e, h, rfl⟩

theorem mem_univDescs {g : Graph M Seq} {v : Nat} (h : v ∈ endsOf g)
    (d c : Bool) : (⟨v, d, c⟩ : EdgeDesc) ∈ univDescs g := by
  refine Finset.mem_biUnion.mpr ⟨v, h, ?_⟩
  cases d <;> cases c <;> simp

theorem edXZof_pVertex (edXY : EdgeDesc) (e : Edge M) :
    (edXZof edXY e).pVertex = e.endV :=
  rfl

theorem edXZof_mem_univ {g : Graph M Seq} {e : Edge M} (edXY : EdgeDesc)
    (h : e ∈ g.edges) : edXZof edXY e ∈ univDescs g := by
  have : edXZof edXY e =
      ⟨e.endV, edXY.dir, if e.getDesc.comp then !edXY.comp else edXY.comp⟩ := rfl
  rw [this]
  exact mem_univDescs (mem_endsOf h) _ _

theorem aosMeasure_le_of_keys_sub {g : Graph M Seq} {m m' : OMap M}
    (h : ∀ ed ∈ keysOf m, ed ∈ keysOf m') :
    aosMeasure g m' ≤ aosMeasure g m := by
  apply Finset.card_le_card
  apply Finset.sdiff_subset_sdiff (le_refl _)
  intro x hx
  rw [List.mem_toFinset] at hx ⊢
  exact h x hx

theorem aosMeasure_insert_lt {g : Graph M Seq} {m : OMap M} {ed : EdgeDesc}
    (o : Overlap M) (hu : ed ∈ univDescs g) (hm : omapMem m ed = false) :
    aosMeasure g (omapInsert m ed o) < aosMeasure g m := by
  apply Finset.card_lt_card
  have hsub : univDescs g \ (keysOf (omapInsert m ed o)).toFinset ⊆
      univDescs g \ (keysOf m).toFinset := by
    apply Finset.sdiff_subset_sdiff (le_refl _)
    intro x hx
    rw [List.mem_toFinset] at hx ⊢
    exact omapInsert_keys_mono ed o hx
  refine (Finset.ssubset_iff_of_subset hsub).mpr ⟨ed, ?_, ?_⟩
  · rw [Finset.mem_sdiff, List.mem_toFinset]
    exact ⟨hu, (omapMem_false_iff m ed).mp hm⟩
  · rw [Finset.mem_sdiff, List.mem_toFinset]
    intro hc
    exact hc.2 (mem_keysOf_omapInsert_self m ed o)

theorem seenMeasure_le_of_sub {g : Graph M Seq} {s s' : List EdgeDesc}
    (h : ∀ ed ∈ s, ed ∈ s') :
    seenMeasure g s' ≤ seenMeasure g s := by
  apply Finset.card_le_card
  apply Finset.sdiff_subset_sdiff (le_refl _)
  intro x hx
  rw [List.mem_toFinset] at hx ⊢
  exact h x hx

theorem seenMeasure_insert_lt {g : Graph M Seq} {s : List EdgeDesc}
    {ed : EdgeDesc} (hu : ed ∈ univDescs g) (hs : sMem s ed = false) :
    seenMeasure g (sInsert s ed) < seenMeasure g s := by
  apply Finset.card_lt_card
  have hsub : univDescs g \ (sInsert s ed).toFinset ⊆
      univDescs g \ s.toFinset := by
    apply Finset.sdiff_subset_sdiff (le_refl _)
    intro x hx
    rw [List.mem_toFinset] at hx ⊢
    exact sInsert_mono ed hx
  refine (Finset.ssubset_iff_of_subset hsub).mpr ⟨ed, ?_, ?_⟩
  · rw [Finset.mem_sdiff, List.mem_toFinset]
    exact ⟨hu, (sMem_false_iff s ed).mp hs⟩
  · rw [Finset.mem_sdiff, List.mem_toFinset]
    intro hc
    apply hc.2
    rw [sInsert_of_not_mem hs]
    exact List.mem_append_right _ (by simp)

/-! ### Behaviour of the `addOverlapsToSet` loop body -/

theorem aosStep_cases (g : Graph M Seq) (ops : MatchOps M Seq) (maxER : Rat)
    (minLength : Int) (fuel pX : Nat) (edXY : EdgeDesc) (ovrXY : Overlap M)
    (m : OMap M) (e : Edge M) :
    (aosStep g ops maxER minLength fuel pX edXY ovrXY m e = m ∧
      ¬ aosCond g ops maxER minLength pX edXY ovrXY m e) ∨
    (aosStep g ops maxER minLength fuel pX edXY ovrXY m e =
        addOverlapsToSetF g ops maxER minLength fuel pX
          (edXZof edXY e) (ovrXZof ops ovrXY e)
          (omapInsert m (edXZof edXY e) (ovrXZof ops ovrXY e)) ∧
      aosCond g ops maxER minLength pX edXY ovrXY m e) := by
  unfold aosStep aosCond
  split
  · next h₁ =>
    split
    · next h₂ =>
      split
      · next h₃ =>
        exact Or.inr ⟨rfl, h₁.1, h₁.2, h₂, h₃.1, h₃.2⟩
      · next h₃ =>
        refine Or.inl ⟨rfl, ?_⟩
        rintro ⟨-, -, -, h4, h5⟩
        exact h₃ ⟨h4, h5⟩
    · next h₂ =>
      refine Or.inl ⟨rfl, ?_⟩
      rintro ⟨-, -, h3, -, -⟩
      exact h₂ h3
  · next h₁ =>
    refine Or.inl ⟨rfl, ?_⟩
    rintro ⟨h2, h3, -, -, -⟩
    exact h₁ ⟨h2, h3⟩

theorem aos_keys_mono (g : Graph M Seq) (ops : MatchOps M Seq) (maxER : Rat)
    (minLength : Int) :
    ∀ (fuel pX : Nat) (edXY : EdgeDesc) (ovrXY : Overlap M) (m : OMap M)
      (ed : EdgeDesc), ed ∈ keysOf m →
      ed ∈ keysOf (addOverlapsToSetF g ops maxER minLength fuel pX edXY ovrXY m)
  | 0, _, _, _, _, _, h => h
  | fuel + 1, pX, edXY, ovrXY, m, ed, h => by
    rw [addF_succ]
    refine foldl_invariant (fun m' => ed ∈ keysOf m') _ _ m h ?_
    intro m' e _ hm'
    rcases aosStep_cases g ops maxER minLength fuel pX edXY ovrXY m' e with
      ⟨heq, -⟩ | ⟨heq, -⟩
    · rw [heq]; exact hm'
    · rw [heq]
      exact aos_keys_mono g ops maxER minLength fuel pX _ _ _ ed
        (omapInsert_keys_mono _ _ hm')

theorem aos_keys_new (g : Graph M Seq) (ops : MatchOps M Seq) (maxER : Rat)
    (minLength : Int) :
    ∀ (fuel pX : Nat) (edXY : EdgeDesc) (ovrXY : Overlap M) (m : OMap M)
      (ed : EdgeDesc),
      ed ∈ keysOf (addOverlapsToSetF g ops maxER minLength fuel pX edXY ovrXY m) →
      ed ∈ keysOf m ∨ (ed.pVertex ≠ pX ∧ ed ∈ univDescs g)
  | 0, _, _, _, _, _ => fun h => Or.inl h
  | fuel + 1, pX, edXY, ovrXY, m, ed => by
    rw [addF_succ]
    intro h
    refine foldl_invariant
      (fun m' => ∀ ed' ∈ keysOf m',
        ed' ∈ keysOf m ∨ (ed'.pVertex ≠ pX ∧ ed' ∈ univDescs g))
      _ _ m (fun ed' h' => Or.inl h') ?_ ed h
    intro m' e he hP ed' h'
    rcases aosStep_cases g ops maxER minLength fuel pX edXY ovrXY m' e with
      ⟨heq, -⟩ | ⟨heq, hcond⟩
    · rw [heq] at h'
      exact hP ed' h'
    · rw [heq] at h'
      rcases aos_keys_new g ops maxER minLength fuel pX _ _ _ ed' h' with h'' | h''
      · rcases keysOf_omapInsert_sub h'' with h'' | rfl
        · exact hP ed' h''
        · refine Or.inr ⟨?_, edXZof_mem_univ edXY (mem_edges_of_getEdgesDir he)⟩
          rw [edXZof_pVertex]
          exact hcond.1
      · exact Or.inr h''

theorem aos_keys_nodup (g : Graph M Seq) (ops : MatchOps M Seq) (maxER : Rat)
    (minLength : Int) :
    ∀ (fuel pX : Nat) (edXY : EdgeDesc) (ovrXY : Overlap M) (m : OMap M),
      (keysOf m).Nodup →
      (keysOf (addOverlapsToSetF g ops maxER minLength fuel pX edXY ovrXY m)).Nodup
  | 0, _, _, _, _, h => h
  | fuel + 1, pX, edXY, ovrXY, m, h => by
    rw [addF_succ]
    refine foldl_invariant (fun m' => (keysOf m').Nodup) _ _ m h ?_
    intro m' e _ hm'
    rcases aosStep_cases g ops maxER minLength fuel pX edXY ovrXY m' e with
      ⟨heq, -⟩ | ⟨heq, -⟩
    · rw [heq]; exact hm'
    · rw [heq]
      exact aos_keys_nodup g ops maxER minLength fuel pX _ _ _
        (nodup_keys_omapInsert _ _ hm')

/-! ### Fuel stabilization of `addOverlapsToSet` -/

theorem aos_stab_succ (g : Graph M Seq) (ops : MatchOps M Seq) (maxER : Rat)
    (minLength : Int) :
    ∀ (fuel pX : Nat) (edXY : EdgeDesc) (ovrXY : Overlap M) (m : OMap M),
      aosMeasure g m < fuel →
      addOverlapsToSetF g ops maxER minLength (fuel + 1) pX edXY ovrXY m =
        addOverlapsToSetF g ops maxER minLength fuel pX edXY ovrXY m
  | 0, _, _, _, _, h => absurd h (Nat.not_lt_zero _)
  | fuel + 1, pX, edXY, ovrXY, m, h => by
    rw [addF_succ, addF_succ]
    refine foldl_congr_rel (fun m' => aosMeasure g m' ≤ aosMeasure g m)
      _ _ _ m (le_refl _) ?_
    intro m' e he hm'
    rcases aosStep_cases g ops maxER minLength (fuel + 1) pX edXY ovrXY m' e with
      ⟨heq, hnc⟩ | ⟨heq, hcond⟩
    · rcases aosStep_cases g ops maxER minLength fuel pX edXY ovrXY m' e with
        ⟨heq', -⟩ | ⟨-, hcond'⟩
      · rw [heq, heq']
        exact ⟨rfl, hm'⟩
      · exact absurd hcond' hnc
    · rcases aosStep_cases g ops maxER minLength fuel pX edXY ovrXY m' e with
        ⟨-, hnc'⟩ | ⟨heq', -⟩
      · exact absurd hcond hnc'
      · rw [heq, heq']
        have huniv : edXZof edXY e ∈ univDescs g :=
          edXZof_mem_univ edXY (mem_edges_of_getEdgesDir he)
        have hlt : aosMeasure g
            (omapInsert m' (edXZof edXY e) (ovrXZof ops ovrXY e)) <
            aosMeasure g m' :=
          aosMeasure_insert_lt _ huniv hcond.2.1
        have hfuel : aosMeasure g
            (omapInsert m' (edXZof edXY e) (ovrXZof ops ovrXY e)) < fuel :=
          lt_of_lt_of_le hlt (le_trans hm' (Nat.lt_succ_iff.mp h))
        constructor
        · exact aos_stab_succ g ops maxER minLength fuel pX _ _ _ hfuel
        · refine le_trans (aosMeasure_le_of_keys_sub ?_)
            (le_trans (le_of_lt hlt) hm')
          intro ed hed
          exact aos_keys_mono g ops maxER minLength (fuel + 1) pX _ _ _ ed hed

theorem aos_stab_add (g : Graph M Seq) (ops : MatchOps M Seq) (maxER : Rat)
    (minLength : Int) (fuel pX : Nat) (edXY : EdgeDesc) (ovrXY : Overlap M)
    (m : OMap M) (h : aosMeasure g m < fuel) :
    ∀ k : Nat,
      addOverlapsToSetF g ops maxER minLength (fuel + k) pX edXY ovrXY m =
        addOverlapsToSetF g ops maxER minLength fuel pX edXY ovrXY m
  | 0 => rfl
  | k + 1 => by
    have h1 : aosMeasure g m < fuel + k := lt_of_lt_of_le h (Nat.le_add_right _ _)
    have h2 := aos_stab_succ g ops maxER minLength (fuel + k) pX edXY ovrXY m h1
    calc addOverlapsToSetF g ops maxER minLength (fuel + (k + 1)) pX edXY ovrXY m
        = addOverlapsToSetF g ops maxER minLength (fuel + k + 1) pX edXY ovrXY m := by
          rw [Nat.add_succ]
      _ = addOverlapsToSetF g ops maxER minLength (fuel + k) pX edXY ovrXY m := h2
      _ = addOverlapsToSetF g ops maxER minLength fuel pX edXY ovrXY m :=
          aos_stab_add g ops maxER minLength fuel pX edXY ovrXY m h k

theorem aos_fuel_irrelevant (g : Graph M Seq) (ops : MatchOps M Seq)
    (maxER : Rat) (minLength : Int) (fuel₁ fuel₂ pX : Nat) (edXY : EdgeDesc)
    (ovrXY : Overlap M) (m : OMap M)
    (h₁ : aosMeasure g m < fuel₁) (h₂ : aosMeasure g m < fuel₂) :
    addOverlapsToSetF g ops maxER minLength fuel₁ pX edXY ovrXY m =
      addOverlapsToSetF g ops maxER minLength fuel₂ pX edXY ovrXY m := by
  rcases Nat.le_total fuel₁ fuel₂ with h | h
  · obtain ⟨k, rfl⟩ := Nat.le.dest h
    exact (aos_stab_add g ops maxER minLength fuel₁ pX edXY ovrXY m h₁ k).symm
  · obtain ⟨k, rfl⟩ := Nat.le.dest h
    exact aos_stab_add g ops maxER minLength fuel₂ pX edXY ovrXY m h₂ k

/-! ### Behaviour of the `enqueueEdges` loop body -/

theorem enqStep_cases (g : Graph M Seq) (ops : MatchOps M Seq) (fuel pX : Nat)
    (edXY : EdgeDesc) (ovrXY : Overlap M)
    (qs : List (ExploreElement M) × List EdgeDesc) (e : Edge M) :
    (enqStep g ops fuel pX edXY ovrXY qs e = qs ∧
      ¬ enqCond ops pX edXY ovrXY qs.2 e) ∨
    (enqStep g ops fuel pX edXY ovrXY qs e =
        enqueueEdgesF g ops fuel pX (edXZof edXY e) (ovrXZof ops ovrXY e)
          (qs.1 ++ [⟨edXZof edXY e, ovrXZof ops ovrXY e⟩],
           sInsert qs.2 (edXZof edXY e)) ∧
      enqCond ops pX edXY ovrXY qs.2 e) := by
  unfold enqStep enqCond
  split
  · next h₁ =>
    split
    · next h₂ =>
      split
      · next h₃ =>
        exact Or.inr ⟨rfl, h₁, h₂, h₃⟩
      · next h₃ =>
        refine Or.inl ⟨rfl, ?_⟩
        rintro ⟨-, -, h3⟩
        exact h₃ h3
    · next h₂ =>
      refine Or.inl ⟨rfl, ?_⟩
      rintro ⟨-, h2, -⟩
      exact h₂ h2
  · next h₁ =>
    refine Or.inl ⟨rfl, ?_⟩
    rintro ⟨h1, -, -⟩
    exact h₁ h1

theorem enq_seen_mono (g : Graph M Seq) (ops : MatchOps M Seq) :
    ∀ (fuel pX : Nat) (edXY : EdgeDesc) (ovrXY : Overlap M)
      (qs : List (ExploreElement M) × List EdgeDesc) (ed : EdgeDesc),
      ed ∈ qs.2 → ed ∈ (enqueueEdgesF g ops fuel pX edXY ovrXY qs).2
  | 0, _, _, _, _, _ => fun h => h
  | fuel + 1, pX, edXY, ovrXY, qs, ed => by
    rw [enqF_succ]
    intro h
    refine foldl_invariant (fun qs' => ed ∈ qs'.2) _ _ qs h ?_
    intro qs' e _ hqs
    rcases enqStep_cases g ops fuel pX edXY ovrXY qs' e with ⟨heq, -⟩ | ⟨heq, -⟩
    · rw [heq]; exact hqs
    · rw [heq]
      exact enq_seen_mono g ops fuel pX _ _ _ ed (sInsert_mono _ hqs)

theorem enq_queue_mono (g : Graph M Seq) (ops : MatchOps M Seq) :
    ∀ (fuel pX : Nat) (edXY : EdgeDesc) (ovrXY : Overlap M)
      (qs : List (ExploreElement M) × List EdgeDesc) (x : ExploreElement M),
      x ∈ qs.1 → x ∈ (enqueueEdgesF g ops fuel pX edXY ovrXY qs).1
  | 0, _, _, _, _, _ => fun h => h
  | fuel + 1, pX, edXY, ovrXY, qs, x => by
    rw [enqF_succ]
    intro h
    refine foldl_invariant (fun qs' => x ∈ qs'.1) _ _ qs h ?_
    intro qs' e _ hqs
    rcases enqStep_cases g ops fuel pX edXY ovrXY qs' e with ⟨heq, -⟩ | ⟨heq, -⟩
    · rw [heq]; exact hqs
    · rw [heq]
      exact enq_queue_mono g ops fuel pX _ _ _ x (List.mem_append_left _ hqs)

theorem enq_queue_new (g : Graph M Seq) (ops : MatchOps M Seq) :
    ∀ (fuel pX : Nat) (edXY : EdgeDesc) (ovrXY : Overlap M)
      (qs : List (ExploreElement M) × List EdgeDesc) (x : ExploreElement M),
      x ∈ (enqueueEdgesF g ops fuel pX edXY ovrXY qs).1 →
      x ∈ qs.1 ∨ x.ed.pVertex ≠ pX
  | 0, _, _, _, _, _ => fun h => Or.inl h
  | fuel + 1, pX, edXY, ovrXY, qs, x => by
    rw [enqF_succ]
    intro h
    refine foldl_invariant
      (fun qs' => ∀ y ∈ qs'.1, y ∈ qs.1 ∨ y.ed.pVertex ≠ pX)
      _ _ qs (fun y hy => Or.inl hy) ?_ x h
    intro qs' e _ hP y hy
    rcases enqStep_cases g ops fuel pX edXY ovrXY qs' e with
      ⟨heq, -⟩ | ⟨heq, hcond⟩
    · rw [heq] at hy
      exact hP y hy
    · rw [heq] at hy
      rcases enq_queue_new g ops fuel pX _ _ _ y hy with hy' | hy'
      · rcases List.mem_append.mp hy' with hy'' | hy''
        · exact hP y hy''
        · have : y = ⟨edXZof edXY e, ovrXZof ops ovrXY e⟩ := by simpa using hy''
          subst this
          right
          rw [edXZof_pVertex]
          exact hcond.1
      · exact Or.inr hy'

/-! ### Fuel stabilization of `enqueueEdges` -/

theorem enq_stab_succ (g : Graph M Seq) (ops : MatchOps M Seq) :
    ∀ (fuel pX : Nat) (edXY : EdgeDesc) (ovrXY : Overlap M)
      (qs : List (ExploreElement M) × List EdgeDesc),
      seenMeasure g qs.2 < fuel →
      enqueueEdgesF g ops (fuel + 1) pX edXY ovrXY qs =
        enqueueEdgesF g ops fuel pX edXY ovrXY qs
  | 0, _, _, _, _, h => absurd h (Nat.not_lt_zero _)
  | fuel + 1, pX, edXY, ovrXY, qs, h => by
    rw [enqF_succ, enqF_succ]
    refine foldl_congr_rel (fun qs' => seenMeasure g qs'.2 ≤ seenMeasure g qs.2)
      _ _ _ qs (le_refl _) ?_
    intro qs' e he hqs
    rcases enqStep_cases g ops (fuel + 1) pX edXY ovrXY qs' e with
      ⟨heq, hnc⟩ | ⟨heq, hcond⟩
    · rcases enqStep_cases g ops fuel pX edXY ovrXY qs' e with
        ⟨heq', -⟩ | ⟨-, hcond'⟩
      · rw [heq, heq']
        exact ⟨rfl, hqs⟩
      · exact absurd hcond' hnc
    · rcases enqStep_cases g ops fuel pX edXY ovrXY qs' e with
        ⟨-, hnc'⟩ | ⟨heq', -⟩
      · exact absurd hcond hnc'
      · rw [heq, heq']
        have huniv : edXZof edXY e ∈ univDescs g :=
          edXZof_mem_univ edXY (mem_edges_of_getEdgesDir he)
        have hlt : seenMeasure g (sInsert qs'.2 (edXZof edXY e)) <
            seenMeasure g qs'.2 :=
          seenMeasure_insert_lt huniv hcond.2.1
        have hfuel : seenMeasure g (sInsert qs'.2 (edXZof edXY e)) < fuel :=
          lt_of_lt_of_le hlt (le_trans hqs (Nat.lt_succ_iff.mp h))
        constructor
        · exact enq_stab_succ g ops fuel pX _ _ _ hfuel
        · refine le_trans (seenMeasure_le_of_sub ?_)
            (le_trans (le_of_lt hlt) hqs)
          intro ed hed
          exact enq_seen_mono g ops (fuel + 1) pX _ _ _ ed hed

theorem enq_stab_add (g : Graph M Seq) (ops : MatchOps M Seq) (fuel pX : Nat)
    (edXY : EdgeDesc) (ovrXY : Overlap M)
    (qs : List (ExploreElement M) × List EdgeDesc)
    (h : seenMeasure g qs.2 < fuel) :
    ∀ k : Nat,
      enqueueEdgesF g ops (fuel + k) pX edXY ovrXY qs =
        enqueueEdgesF g ops fuel pX edXY ovrXY qs
  | 0 => rfl
  | k + 1 => by
    have h1 : seenMeasure g qs.2 < fuel + k := lt_of_lt_of_le h (Nat.le_add_right _ _)
    have h2 := enq_stab_succ g ops (fuel + k) pX edXY ovrXY qs h1
    calc enqueueEdgesF g ops (fuel + (k + 1)) pX edXY ovrXY qs
        = enqueueEdgesF g ops (fuel + k + 1) pX edXY ovrXY qs := by
          rw [Nat.add_succ]
      _ = enqueueEdgesF g ops (fuel + k) pX edXY ovrXY qs := h2
      _ = enqueueEdgesF g ops fuel pX edXY ovrXY qs :=
          enq_stab_add g ops fuel pX edXY ovrXY qs h k

theorem enq_fuel_irrelevant (g : Graph M Seq) (ops : MatchOps M Seq)
    (fuel₁ fuel₂ pX : Nat) (edXY : EdgeDesc) (ovrXY : Overlap M)
    (qs : List (ExploreElement M) × List EdgeDesc)
    (h₁ : seenMeasure g qs.2 < fuel₁) (h₂ : seenMeasure g qs.2 < fuel₂) :
    enqueueEdgesF g ops fuel₁ pX edXY ovrXY qs =
      enqueueEdgesF g ops fuel₂ pX edXY ovrXY qs := by
  rcases Nat.le_total fuel₁ fuel₂ with h | h
  · obtain ⟨k, rfl⟩ := Nat.le.dest h
    exact (enq_stab_add g ops fuel₁ pX edXY ovrXY qs h₁ k).symm
  · obtain ⟨k, rfl⟩ := Nat.le.dest h
    exact enq_stab_add g ops fuel₂ pX edXY ovrXY qs h₂ k

/-! ### Claim C7 -/

/-- C7: the recursive expansions terminate.  In the fueled embedding this
is fuel-irrelevance: as soon as the fuel exceeds the number of
descriptors of the finite key space still absent from the map (for
`addOverlapsToSet`) or from the seen set (for `enqueueEdges`), the
result no longer depends on the fuel, because each recursive call first
inserts a new, previously absent key drawn from the finite space
`univDescs`. -/
theorem expansion_terminates (g : Graph M Seq) (ops : MatchOps M Seq)
    (maxER : Rat) (minLength : Int) (fuel₁ fuel₂ pX pX' : Nat)
    (edXY edXY' : EdgeDesc) (ovrXY ovrXY' : Overlap M) (m : OMap M)
    (qs : List (ExploreElement M) × List EdgeDesc)
    (h₁ : aosMeasure g m < fuel₁) (h₂ : aosMeasure g m < fuel₂)
    (h₃ : seenMeasure g qs.2 < fuel₁) (h₄ : seenMeasure g qs.2 < fuel₂) :
    addOverlapsToSetF g ops maxER minLength fuel₁ pX edXY ovrXY m =
        addOverlapsToSetF g ops maxER minLength fuel₂ pX edXY ovrXY m ∧
      enqueueEdgesF g ops fuel₁ pX' edXY' ovrXY' qs =
        enqueueEdgesF g ops fuel₂ pX' edXY' ovrXY' qs :=
  ⟨aos_fuel_irrelevant g ops maxER minLength fuel₁ fuel₂ pX edXY ovrXY m h₁ h₂,
   enq_fuel_irrelevant g ops fuel₁ fuel₂ pX' edXY' ovrXY' qs h₃ h₄⟩

theorem expansion_terminates_witness :
    addOverlapsToSetF cG3 cOps 1 0 9 0 ⟨1, false, false⟩ ⟨0, 1, 5⟩ [] =
        addOverlapsToSetF cG3 cOps 1 0 12 0 ⟨1, false, false⟩ ⟨0, 1, 5⟩ [] ∧
      enqueueEdgesF cG3 cOps 9 0 ⟨1, false, false⟩ ⟨0, 1, 5⟩ ([], []) =
        enqueueEdgesF cG3 cOps 12 0 ⟨1, false, false⟩ ⟨0, 1, 5⟩ ([], []) :=
  expansion_terminates cG3 cOps 1 0 9 12 0 0 ⟨1, false, false⟩ ⟨1, false, false⟩
    ⟨0, 1, 5⟩ ⟨0, 1, 5⟩ [] ([], [])
    (by decide) (by decide) (by decide) (by decide)

/-! ### Claim C10 -/

/-- C10: no entry added by transitive inference targets the query vertex
itself: every key `addOverlapsToSet` adds to the map and every element
`enqueueEdges` pushes onto the explore queue has a target vertex
different from `pX`, because both skip neighbor edges ending at `pX`. -/
theorem no_self_target (g : Graph M Seq) (ops : MatchOps M Seq)
    (maxER : Rat) (minLength : Int) (fuel pX pX' : Nat)
    (edXY edXY' : EdgeDesc) (ovrXY ovrXY' : Overlap M) (m : OMap M)
    (qs : List (ExploreElement M) × List EdgeDesc) :
    (∀ ed, ed ∈ keysOf (addOverlapsToSetF g ops maxER minLength fuel pX edXY ovrXY m) →
        ed ∈ keysOf m ∨ ed.pVertex ≠ pX) ∧
    (∀ x, x ∈ (enqueueEdgesF g ops fuel pX' edXY' ovrXY' qs).1 →
        x ∈ qs.1 ∨ x.ed.pVertex ≠ pX') :=
  ⟨fun ed h =>
      (aos_keys_new g ops maxER minLength fuel pX edXY ovrXY m ed h).elim
        Or.inl (fun h' => Or.inr h'.1),
   fun x h => enq_queue_new g ops fuel pX' edXY' ovrXY' qs x h⟩

theorem no_self_target_witness :
    (⟨2, false, false⟩ : EdgeDesc) ∈
        keysOf [(⟨1, false, false⟩, (⟨0, 1, 5⟩ : Overlap Nat))] ∨
      (⟨2, false, false⟩ : EdgeDesc).pVertex ≠ 0 :=
  (no_self_target cG3 cOps 1 0 3 0 0 ⟨1, false, false⟩ ⟨1, false, false⟩
      ⟨0, 1, 5⟩ ⟨0, 1, 5⟩ [(⟨1, false, false⟩, ⟨0, 1, 5⟩)] ([], [])).1
    ⟨2, false, false⟩ (by decide)

/-! ### The partition scan: characterization lemmas -/

theorem omapInsert_eq_append {t : OMap M} {ed : EdgeDesc} {o : Overlap M}
    (h : omapMem t ed = false) : omapInsert t ed o = t ++ [(ed, o)] := by
  simp [omapInsert, h]

theorem omapMem_append (t t' : OMap M) (ed : EdgeDesc) :
    omapMem (t ++ t') ed = (omapMem t ed || omapMem t' ed) :=
  List.any_append

theorem nodup_keys_entry_unique :
    ∀ {l : OMap M} {p q : EdgeDesc × Overlap M},
      (keysOf l).Nodup → p ∈ l → q ∈ l → p.1 = q.1 → p = q
  | a :: rest, p, q, hnd, hp, hq, hpq => by
    have hnd' : a.1 ∉ keysOf rest ∧ (keysOf rest).Nodup := by
      simpa [keysOf] using hnd
    rcases List.mem_cons.mp hp with rfl | hp' <;>
      rcases List.mem_cons.mp hq with rfl | hq'
    · rfl
    · exact absurd (hpq ▸ mem_keysOf_of_mem hq') hnd'.1
    · exact absurd (hpq ▸ mem_keysOf_of_mem hp') hnd'.1
    · exact nodup_keys_entry_unique hnd'.2 hp' hq' hpq

theorem foldl_insert_keys :
    ∀ (l t : OMap M), (∀ p ∈ l, omapMem t p.1 = false) → (keysOf l).Nodup →
      keysOf (l.foldl (fun t p => omapInsert t p.1 p.2) t) =
        keysOf t ++ keysOf l
  | [], t, _, _ => by simp [keysOf]
  | p :: l, t, habs, hnd => by
    have hnd' : p.1 ∉ keysOf l ∧ (keysOf l).Nodup := by
      simpa [keysOf] using hnd
    have hins : omapInsert t p.1 p.2 = t ++ [p] :=
      omapInsert_eq_append (habs p (List.mem_cons_self p l))
    have habs' : ∀ q ∈ l, omapMem (t ++ [p]) q.1 = false := by
      intro q hq
      rw [omapMem_append]
      have h1 : omapMem t q.1 = false := habs q (List.mem_cons_of_mem p hq)
      have h2 : omapMem [p] q.1 = false := by
        rw [omapMem_false_iff]
        intro hc
        have : q.1 = p.1 := by simpa [keysOf] using hc
        exact hnd'.1 (this ▸ mem_keysOf_of_mem hq)
      rw [h1, h2]
      rfl
    calc keysOf (List.foldl (fun t p => omapInsert t p.1 p.2) t (p :: l))
        = keysOf (List.foldl (fun t p => omapInsert t p.1 p.2) (t ++ [p]) l) := by
          rw [List.foldl_cons, hins]
      _ = keysOf (t ++ [p]) ++ keysOf l := foldl_insert_keys l (t ++ [p]) habs' hnd'.2
      _ = keysOf t ++ keysOf (p :: l) := by
          rw [keysOf_append]
          simp [keysOf]

theorem foldl_insert_mem :
    ∀ (l t : OMap M), (∀ p ∈ l, omapMem t p.1 = false) → (keysOf l).Nodup →
      ∀ x, x ∈ l.foldl (fun t p => omapInsert t p.1 p.2) t ↔ x ∈ t ∨ x ∈ l
  | [], t, _, _ => by simp
  | p :: l, t, habs, hnd => by
    have hnd' : p.1 ∉ keysOf l ∧ (keysOf l).Nodup := by
      simpa [keysOf] using hnd
    have hins : omapInsert t p.1 p.2 = t ++ [p] :=
      omapInsert_eq_append (habs p (List.mem_cons_self p l))
    have habs' : ∀ q ∈ l, omapMem (t ++ [p]) q.1 = false := by
      intro q hq
      rw [omapMem_append]
      have h1 : omapMem t q.1 = false := habs q (List.mem_cons_of_mem p hq)
      have h2 : omapMem [p] q.1 = false := by
        rw [omapMem_false_iff]
        intro hc
        have : q.1 = p.1 := by simpa [keysOf] using hc
        exact hnd'.1 (this ▸ mem_keysOf_of_mem hq)
      rw [h1, h2]
      rfl
    intro x
    rw [List.foldl_cons, hins, foldl_insert_mem l (t ++ [p]) habs' hnd'.2 x,
      List.mem_append]
    constructor
    · rintro (⟨h | h⟩ | h)
      · exact Or.inl h
      · exact Or.inr (List.mem_cons.mpr (Or.inl (by simpa using h)))
      · exact Or.inr (List.mem_cons_of_mem p h)
    · rintro (h | h)
      · exact Or.inl (Or.inl h)
      · rcases List.mem_cons.mp h with rfl | h
        · exact Or.inl (Or.inr (by simp))
        · exact Or.inr h

theorem scan_fst (g : Graph M Seq) (ops : MatchOps M Seq) (maxER : Rat)
    (minLength : Int) (edXY : EdgeDesc) (ovrXY : Overlap M) :
    ∀ (irr : List (EdgeDesc × Overlap M)) (tMap : OMap M),
      (scanLoop g ops maxER minLength edXY ovrXY irr tMap).1 =
        irr.filter fun p => !(moveCondition g ops maxER minLength edXY ovrXY p)
  | [], _ => rfl
  | p :: rest, tMap => by
    rw [scanLoop, List.filter_cons]
    by_cases h : moveCondition g ops maxER minLength edXY ovrXY p = true
    · rw [if_pos h]
      simp only [h, Bool.not_true, if_neg]
      exact scan_fst g ops maxER minLength edXY ovrXY rest _
    · rw [if_neg h]
      have hb : moveCondition g ops maxER minLength edXY ovrXY p = false :=
        Bool.eq_false_iff.mpr h
      simp only [hb, Bool.not_false, if_pos]
      rw [scan_fst g ops maxER minLength edXY ovrXY rest tMap]

theorem scan_snd (g : Graph M Seq) (ops : MatchOps M Seq) (maxER : Rat)
    (minLength : Int) (edXY : EdgeDesc) (ovrXY : Overlap M) :
    ∀ (irr : List (EdgeDesc × Overlap M)) (tMap : OMap M),
      (scanLoop g ops maxER minLength edXY ovrXY irr tMap).2 =
        (irr.filter (moveCondition g ops maxER minLength edXY ovrXY)).foldl
          (fun t p => omapInsert t p.1 p.2) tMap
  | [], _ => rfl
  | p :: rest, tMap => by
    rw [scanLoop, List.filter_cons]
    by_cases h : moveCondition g ops maxER minLength edXY ovrXY p = true
    · rw [if_pos h, if_pos h, List.foldl_cons]
      exact scan_snd g ops maxER minLength edXY ovrXY rest _
    · rw [if_neg h, if_neg h]
      exact scan_snd g ops maxER minLength edXY ovrXY rest tMap

theorem moveCondition_iff (g : Graph M Seq) (ops : MatchOps M Seq)
    (maxER : Rat) (minLength : Int) (edXY : EdgeDesc) (ovrXY : Overlap M)
    (edXZ : EdgeDesc) (ovrXZ : Overlap M) :
    moveCondition g ops maxER minLength edXY ovrXY (edXZ, ovrXZ) = true ↔
      (¬(edXZ = edXY) ∧ edXY.dir = edXZ.dir ∧
        ovlLen0 ops ovrXY > ovlLen0 ops ovrXZ ∧
        isErrorRateAcceptable
          (calcErrorRate g ops edXY.pVertex edXZ.pVertex
            (inferTransitiveOverlap ops (oswap ops ovrXY) ovrXZ)) maxER = true ∧
        ovlLen0 ops (inferTransitiveOverlap ops (oswap ops ovrXY) ovrXZ) ≥ minLength) := by
  simp [moveCondition, and_assoc]

/-! ### Claim C2 -/

/-- C2: during the partition scan for the popped overlap X→Y, an entry
X→Z still in the irreducible map is moved to the transitive map iff it
is not X→Y itself, has X→Y's direction, is strictly shorter than X→Y,
and the Y→Z overlap inferred by composing the reverse of X→Y with X→Z
has an acceptable error rate and overlap length at least `minLength`. -/
theorem partition_move_iff (g : Graph M Seq) (ops : MatchOps M Seq)
    (maxER : Rat) (minLength : Int) (edXY edXZ : EdgeDesc)
    (ovrXY ovrXZ : Overlap M) (irr tMap : OMap M)
    (hnd : (keysOf irr).Nodup)
    (hdisj : ∀ p ∈ irr, omapMem tMap p.1 = false)
    (hmem : (edXZ, ovrXZ) ∈ irr) :
    ((edXZ, ovrXZ) ∈ (scanLoop g ops maxER minLength edXY ovrXY irr tMap).2 ∧
        (edXZ, ovrXZ) ∉ (scanLoop g ops maxER minLength edXY ovrXY irr tMap).1) ↔
      (¬(edXZ = edXY) ∧ edXY.dir = edXZ.dir ∧
        ovlLen0 ops ovrXY > ovlLen0 ops ovrXZ ∧
        isErrorRateAcceptable
          (calcErrorRate g ops edXY.pVertex edXZ.pVertex
            (inferTransitiveOverlap ops (oswap ops ovrXY) ovrXZ)) maxER = true ∧
        ovlLen0 ops (inferTransitiveOverlap ops (oswap ops ovrXY) ovrXZ) ≥ minLength) := by
  rw [← moveCondition_iff, scan_fst, scan_snd]
  have hndmv : (keysOf (irr.filter (moveCondition g ops maxER minLength edXY ovrXY))).Nodup :=
    List.Nodup.sublist (List.Sublist.map Prod.fst (List.filter_sublist irr)) hnd
  have habs : ∀ p ∈ irr.filter (moveCondition g ops maxER minLength edXY ovrXY),
      omapMem tMap p.1 = false :=
    fun p hp => hdisj p (List.mem_filter.mp hp).1
  rw [foldl_insert_mem _ tMap habs hndmv]
  constructor
  · rintro ⟨ht | ht, -⟩
    · exact absurd ((omapMem_iff tMap edXZ).mpr (mem_keysOf_of_mem ht))
        (by rw [hdisj (edXZ, ovrXZ) hmem]; exact Bool.false_ne_true)
    · exact (List.mem_filter.mp ht).2
  · intro hc
    refine ⟨Or.inr (List.mem_filter.mpr ⟨hmem, hc⟩), ?_⟩
    intro hk
    have := (List.mem_filter.mp hk).2
    rw [hc] at this
    simp at this

theorem partition_move_iff_witness :
    (((⟨2, false, false⟩, ⟨0, 2, 3⟩) : EdgeDesc × Overlap Nat) ∈
          (scanLoop cG2 cOps 1 0 ⟨1, false, false⟩ ⟨0, 1, 5⟩
            [(⟨1, false, false⟩, ⟨0, 1, 5⟩), (⟨2, false, false⟩, ⟨0, 2, 3⟩)] []).2 ∧
        ((⟨2, false, false⟩, ⟨0, 2, 3⟩) : EdgeDesc × Overlap Nat) ∉
          (scanLoop cG2 cOps 1 0 ⟨1, false, false⟩ ⟨0, 1, 5⟩
            [(⟨1, false, false⟩, ⟨0, 1, 5⟩), (⟨2, false, false⟩, ⟨0, 2, 3⟩)] []).1) ↔
      (¬((⟨2, false, false⟩ : EdgeDesc) = ⟨1, false, false⟩) ∧
        (⟨1, false, false⟩ : EdgeDesc).dir = (⟨2, false, false⟩ : EdgeDesc).dir ∧
        ovlLen0 cOps ⟨0, 1, 5⟩ > ovlLen0 cOps ⟨0, 2, 3⟩ ∧
        isErrorRateAcceptable
          (calcErrorRate cG2 cOps 1 2
            (inferTransitiveOverlap cOps (oswap cOps ⟨0, 1, 5⟩) ⟨0, 2, 3⟩)) 1 = true ∧
        ovlLen0 cOps (inferTransitiveOverlap cOps (oswap cOps ⟨0, 1, 5⟩) ⟨0, 2, 3⟩) ≥ 0) :=
  partition_move_iff cG2 cOps 1 0 ⟨1, false, false⟩ ⟨2, false, false⟩
    ⟨0, 1, 5⟩ ⟨0, 2, 3⟩
    [(⟨1, false, false⟩, ⟨0, 1, 5⟩), (⟨2, false, false⟩, ⟨0, 2, 3⟩)] []
    (by decide) (by decide) (by decide)

/-! ### Partition key permutation and claims C1, C8 -/

theorem toFinset_eq_of_perm {α : Type} [DecidableEq α] {l l' : List α}
    (h : l.Perm l') : l.toFinset = l'.toFinset := by
  ext x
  simp [List.mem_toFinset, h.mem_iff]

theorem scan_keys_perm (g : Graph M Seq) (ops : MatchOps M Seq) (maxER : Rat)
    (minLength : Int) (edXY : EdgeDesc) (ovrXY : Overlap M)
    (irr tMap : OMap M) (hnd : (keysOf irr ++ keysOf tMap).Nodup) :
    (keysOf (scanLoop g ops maxER minLength edXY ovrXY irr tMap).1 ++
        keysOf (scanLoop g ops maxER minLength edXY ovrXY irr tMap).2).Perm
      (keysOf irr ++ keysOf tMap) := by
  obtain ⟨hirr, htm, hdisj⟩ := List.nodup_append.mp hnd
  have habs : ∀ p ∈ irr.filter (moveCondition g ops maxER minLength edXY ovrXY),
      omapMem tMap p.1 = false := by
    intro p hp
    rw [omapMem_false_iff]
    exact fun hc => hdisj (mem_keysOf_of_mem (List.mem_filter.mp hp).1) hc
  have hndmv : (keysOf (irr.filter (moveCondition g ops maxER minLength edXY ovrXY))).Nodup :=
    List.Nodup.sublist (List.Sublist.map Prod.fst (List.filter_sublist irr)) hirr
  rw [scan_fst, scan_snd, foldl_insert_keys _ tMap habs hndmv]
  have hsplit : (keysOf (irr.filter fun p =>
        !(moveCondition g ops maxER minLength edXY ovrXY p)) ++
      keysOf (irr.filter (moveCondition g ops maxER minLength edXY ovrXY))).Perm
      (keysOf irr) := by
    have h0 := (List.perm_append_comm).trans
      (List.filter_append_perm (moveCondition g ops maxER minLength edXY ovrXY) irr)
    have h1 := List.Perm.map Prod.fst h0
    rw [List.map_append] at h1
    exact h1
  refine List.Perm.trans (List.Perm.append_left _ List.perm_append_comm) ?_
  rw [← List.append_assoc]
  exact List.Perm.append_right _ hsplit

theorem partLoop_keys_perm (g : Graph M Seq) (ops : MatchOps M Seq)
    (maxER : Rat) (minLength : Int) :
    ∀ (n : Nat) (queue : List (EdgeDesc × Overlap M)) (irr tMap : OMap M),
      (keysOf irr ++ keysOf tMap).Nodup →
      (keysOf (partitionLoop g ops maxER minLength n queue irr tMap).1 ++
          keysOf (partitionLoop g ops maxER minLength n queue irr tMap).2).Perm
        (keysOf irr ++ keysOf tMap)
  | 0, _, irr, tMap, _ => List.Perm.refl _
  | n + 1, queue, irr, tMap, hnd => by
    rw [partitionLoop]
    cases hq : qSelect (fun p => ovlLen0 ops p.2) queue with
    | none => exact List.Perm.refl _
    | some pr =>
      obtain ⟨edoPair, queue'⟩ := pr
      have hscan := scan_keys_perm g ops maxER minLength edoPair.1 edoPair.2 irr tMap hnd
      have hnd' := hscan.nodup_iff.mpr hnd
      exact (partLoop_keys_perm g ops maxER minLength n queue' _ _ hnd').trans hscan

theorem complete_keys_nodup (g : Graph M Seq) (ops : MatchOps M Seq)
    (fuel pVertex : Nat) (maxER : Rat) (minLength : Int) :
    (keysOf (constructCompleteOverlapMap g ops fuel pVertex maxER minLength)).Nodup := by
  rw [constructCompleteOverlapMap]
  refine foldl_invariant (fun m => (keysOf m).Nodup) _ _ [] (by simp [keysOf]) ?_
  intro m e _ hm
  exact aos_keys_nodup g ops maxER minLength fuel pVertex _ _ _
    (nodup_keys_omapInsert _ _ hm)

/-! ### Claim C1 -/

/-- C1: partitioning is a strict relabeling.  The key sets of the
irreducible and transitive maps produced by
`constructPartitionedOverlapMap` together equal the key set of the
complete overlap map of the same vertex and thresholds, and they are
disjoint. -/
theorem partition_completeness (g : Graph M Seq) (ops : MatchOps M Seq)
    (fuel pVertex : Nat) (maxER : Rat) (minLength : Int) :
    ((keysOf (constructPartitionedOverlapMap g ops fuel pVertex maxER minLength).1).toFinset ∪
        (keysOf (constructPartitionedOverlapMap g ops fuel pVertex maxER minLength).2).toFinset =
      (keysOf (constructCompleteOverlapMap g ops fuel pVertex maxER minLength)).toFinset) ∧
    ((keysOf (constructPartitionedOverlapMap g ops fuel pVertex maxER minLength).1).toFinset ∩
        (keysOf (constructPartitionedOverlapMap g ops fuel pVertex maxER minLength).2).toFinset = ∅) := by
  have hnd0 : (keysOf (constructCompleteOverlapMap g ops fuel pVertex maxER minLength) ++
      keysOf ([] : OMap M)).Nodup := by
    simpa [keysOf] using complete_keys_nodup g ops fuel pVertex maxER minLength
  have hperm := partLoop_keys_perm g ops maxER minLength
    (constructCompleteOverlapMap g ops fuel pVertex maxER minLength).length
    (constructCompleteOverlapMap g ops fuel pVertex maxER minLength)
    (constructCompleteOverlapMap g ops fuel pVertex maxER minLength) [] hnd0
  have heq : constructPartitionedOverlapMap g ops fuel pVertex maxER minLength =
      partitionLoop g ops maxER minLength
        (constructCompleteOverlapMap g ops fuel pVertex maxER minLength).length
        (constructCompleteOverlapMap g ops fuel pVertex maxER minLength)
        (constructCompleteOverlapMap g ops fuel pVertex maxER minLength) [] := rfl
  rw [heq]
  have hfin := toFinset_eq_of_perm hperm
  rw [List.toFinset_append, List.toFinset_append] at hfin
  have hnil : (keysOf ([] : OMap M)).toFinset = ∅ := by simp [keysOf]
  rw [hnil, Finset.union_empty] at hfin
  constructor
  · exact hfin
  · have hnd1 := hperm.nodup_iff.mpr hnd0
    obtain ⟨h1, h2, hdisj⟩ := List.nodup_append.mp hnd1
    apply Finset.eq_empty_iff_forall_not_mem.mpr
    intro x hx
    rw [Finset.mem_inter, List.mem_toFinset, List.mem_toFinset] at hx
    exact hdisj hx.1 hx.2

/-! ### Claim C8 -/

theorem moveCondition_false_of_max (g : Graph M Seq) (ops : MatchOps M Seq)
    (maxER : Rat) (minLength : Int) (edXY edS : EdgeDesc)
    (ovrXY ovrS : Overlap M)
    (hmax : edXY ≠ edS → edXY.dir = edS.dir →
      ovlLen0 ops ovrXY < ovlLen0 ops ovrS) :
    moveCondition g ops maxER minLength edXY ovrXY (edS, ovrS) = false := by
  apply Bool.eq_false_iff.mpr
  intro hc
  obtain ⟨h1, h2, h3, -, -⟩ := (moveCondition_iff g ops maxER minLength
    edXY ovrXY edS ovrS).mp hc
  have := hmax (fun he => h1 he.symm) h2
  omega

theorem partLoop_longest (g : Graph M Seq) (ops : MatchOps M Seq)
    (maxER : Rat) (minLength : Int) (complete : OMap M) (edS : EdgeDesc)
    (ovrS : Overlap M)
    (hmax : ∀ p ∈ complete, p.1 ≠ edS → p.1.dir = edS.dir →
      ovlLen0 ops p.2 < ovlLen0 ops ovrS) :
    ∀ (n : Nat) (queue : List (EdgeDesc × Overlap M)) (irr tMap : OMap M),
      (∀ p ∈ queue, p ∈ complete) → (edS, ovrS) ∈ irr →
      (edS, ovrS) ∈ (partitionLoop g ops maxER minLength n queue irr tMap).1
  | 0, _, irr, tMap, _, hmem => hmem
  | n + 1, queue, irr, tMap, hqueue, hmem => by
    rw [partitionLoop]
    cases hq : qSelect (fun p => ovlLen0 ops p.2) queue with
    | none => exact hmem
    | some pr =>
      obtain ⟨edoPair, queue'⟩ := pr
      have hsel := qSelect_mem
        (fun (p : EdgeDesc × Overlap M) => ovlLen0 ops p.2) hq
      have hpop : edoPair ∈ complete := hqueue edoPair hsel.1
      have hfalse : moveCondition g ops maxER minLength edoPair.1 edoPair.2
          (edS, ovrS) = false :=
        moveCondition_false_of_max g ops maxER minLength edoPair.1 edS
          edoPair.2 ovrS (hmax edoPair hpop)
      refine partLoop_longest g ops maxER minLength complete edS ovrS hmax n queue' _ _
        (fun p hp => hqueue p (hsel.2 p hp)) ?_
      rw [scan_fst]
      exact List.mem_filter.mpr ⟨hmem, by rw [hfalse]; rfl⟩

/-- C8: the entry of the complete overlap map with the strictly greatest
overlap length among entries of its direction is never moved to the
transitive map: it is still a key of the irreducible map when
`constructPartitionedOverlapMap` returns. -/
theorem longest_overlap_irreducible (g : Graph M Seq) (ops : MatchOps M Seq)
    (fuel pVertex : Nat) (maxER : Rat) (minLength : Int) (edS : EdgeDesc)
    (ovrS : Overlap M)
    (hmem : (edS, ovrS) ∈ constructCompleteOverlapMap g ops fuel pVertex maxER minLength)
    (hmax : ∀ p ∈ constructCompleteOverlapMap g ops fuel pVertex maxER minLength,
      p.1 ≠ edS → p.1.dir = edS.dir → ovlLen0 ops p.2 < ovlLen0 ops ovrS) :
    edS ∈ keysOf (constructPartitionedOverlapMap g ops fuel pVertex maxER minLength).1 := by
  have heq : constructPartitionedOverlapMap g ops fuel pVertex maxER minLength =
      partitionLoop g ops maxER minLength
        (constructCompleteOverlapMap g ops fuel pVertex maxER minLength).length
        (constructCompleteOverlapMap g ops fuel pVertex maxER minLength)
        (constructCompleteOverlapMap g ops fuel pVertex maxER minLength) [] := rfl
  rw [heq]
  exact mem_keysOf_of_mem (partLoop_longest g ops maxER minLength _ edS ovrS hmax
    _ _ _ [] (fun p hp => hp) hmem)

theorem longest_overlap_irreducible_witness :
    (⟨1, false, false⟩ : EdgeDesc) ∈
      keysOf (constructPartitionedOverlapMap cG2 cOpsNoInt 3 0 1 0).1 :=
  longest_overlap_irreducible cG2 cOpsNoInt 3 0 1 0 ⟨1, false, false⟩ ⟨0, 1, 5⟩
    (by decide) (by decide)

/-! ### Claim C6 -/

/-- C6 (amended): in `addOverlapsToSet`, the candidate X→Z produced by a
neighbor edge is inserted into the output map iff the neighbor Z is not
the query vertex pX, the descriptor is not already a key, the geometric
intersection test passes, the inferred error rate is acceptable and the
inferred length meets `minLength`; when any test fails the map is left
unchanged, so the recursion does not expand through the candidate. -/
theorem aos_insert_iff (g : Graph M Seq) (ops : MatchOps M Seq)
    (maxER : Rat) (minLength : Int) (fuel pX : Nat) (edXY : EdgeDesc)
    (ovrXY : Overlap M) (m : OMap M) (e : Edge M) :
    (omapMem (aosStep g ops maxER minLength fuel pX edXY ovrXY m e)
        (edXZof edXY e) = true ↔
      (omapMem m (edXZof edXY e) = true ∨
        (e.endV ≠ pX ∧ hasTransitiveOverlap ops ovrXY e.ovr = true ∧
          isErrorRateAcceptable
            (calcErrorRate g ops pX e.endV (ovrXZof ops ovrXY e)) maxER = true ∧
          ovlLen0 ops (ovrXZof ops ovrXY e) ≥ minLength))) ∧
    (¬ aosCond g ops maxER minLength pX edXY ovrXY m e →
      aosStep g ops maxER minLength fuel pX edXY ovrXY m e = m) := by
  rcases aosStep_cases g ops maxER minLength fuel pX edXY ovrXY m e with
    ⟨heq, hnc⟩ | ⟨heq, hcond⟩
  · constructor
    · rw [heq]
      constructor
      · exact fun h => Or.inl h
      · rintro (h | hcond)
        · exact h
        · by_cases hm : omapMem m (edXZof edXY e) = true
          · exact hm
          · exact absurd ⟨hcond.1, Bool.eq_false_iff.mpr hm, hcond.2.1,
              hcond.2.2.1, hcond.2.2.2⟩ hnc
    · exact fun _ => heq
  · constructor
    · rw [heq]
      constructor
      · intro h
        exact Or.inr ⟨hcond.1, hcond.2.2.1, hcond.2.2.2.1, hcond.2.2.2.2⟩
      · intro h
        exact (omapMem_iff _ _).mpr (aos_keys_mono g ops maxER minLength fuel pX _ _ _ _
          (mem_keysOf_omapInsert_self m _ _))
    · exact fun hnc => absurd hcond hnc

theorem aos_insert_iff_witness :
    omapMem (aosStep cG3 cOps 1 0 3 0 ⟨1, false, false⟩ ⟨0, 1, 5⟩ []
        ⟨1, 2, false, false, ⟨1, 2, 3⟩⟩)
      (edXZof ⟨1, false, false⟩ ⟨1, 2, false, false, ⟨1, 2, 3⟩⟩) = true ∧
    aosStep cG3 cOps 1 0 3 2 ⟨1, false, false⟩ ⟨0, 1, 5⟩ []
        ⟨1, 2, false, false, ⟨1, 2, 3⟩⟩ = [] :=
  ⟨(aos_insert_iff cG3 cOps 1 0 3 0 ⟨1, false, false⟩ ⟨0, 1, 5⟩ []
      ⟨1, 2, false, false, ⟨1, 2, 3⟩⟩).1.mpr (Or.inr (by decide)),
   (aos_insert_iff cG3 cOps 1 0 3 2 ⟨1, false, false⟩ ⟨0, 1, 5⟩ []
      ⟨1, 2, false, false, ⟨1, 2, 3⟩⟩).2 (by decide)⟩

/-- C6 counterexample: for the neighbor edge Y→X back to the query
vertex itself, all four conditions named by the claim hold (descriptor
absent, intersection, error rate, length), yet the candidate is not
inserted, because the loop also requires Z ≠ X. -/
theorem aos_insert_iff_cex :
    (omapMem [(⟨1, false, false⟩, (⟨0, 1, 5⟩ : Overlap Nat))]
        (edXZof ⟨1, false, false⟩ ⟨1, 0, false, false, ⟨1, 0, 4⟩⟩) = false ∧
      hasTransitiveOverlap cOps ⟨0, 1, 5⟩ (⟨1, 0, 4⟩ : Overlap Nat) = true ∧
      isErrorRateAcceptable
        (calcErrorRate cGBack cOps 0 0
          (ovrXZof cOps ⟨0, 1, 5⟩ ⟨1, 0, false, false, ⟨1, 0, 4⟩⟩)) 1 = true ∧
      ovlLen0 cOps (ovrXZof cOps ⟨0, 1, 5⟩ ⟨1, 0, false, false, ⟨1, 0, 4⟩⟩) ≥ 0) ∧
    omapMem (aosStep cGBack cOps 1 0 3 0 ⟨1, false, false⟩ ⟨0, 1, 5⟩
        [(⟨1, false, false⟩, ⟨0, 1, 5⟩)] ⟨1, 0, false, false, ⟨1, 0, 4⟩⟩)
      (edXZof ⟨1, false, false⟩ ⟨1, 0, false, false, ⟨1, 0, 4⟩⟩) = false := by
  decide

/-! ### Claim C3 -/

/-- C3: for a popped explore element, if its descriptor is already a key
of the exclusion set nothing happens; otherwise a new edge is
materialized iff the overlap length meets the graph's global minimum
and the error rate is acceptable against the graph's global error rate,
and exactly then the exclusion set is extended with everything reachable
from the newly connected neighbor (the `addOverlapsToSet` expansion on
the updated graph with thresholds 1.0 and 0). -/
theorem excision_step_spec (ops : MatchOps M Seq) (fuel pVertex : Nat)
    (g : Graph M Seq) (excl exclT : OMap M) (elem : ExploreElement M)
    (hskip : omapMem exclT elem.ed = true)
    (hgo : omapMem excl elem.ed = false) :
    excisionStep ops fuel pVertex g exclT elem = (g, exclT) ∧
    ((excisionStep ops fuel pVertex g excl elem).1.edges =
        g.edges ++ [⟨pVertex, elem.ed.pVertex, elem.ed.dir, elem.ed.comp, elem.ovr⟩] ↔
      (ops.getMinOverlapLength elem.ovr.mtch ≥ g.minOverlap ∧
        isErrorRateAcceptable
          (calcErrorRate g ops pVertex elem.ed.pVertex elem.ovr)
          g.errorRate = true)) ∧
    ((excisionStep ops fuel pVertex g excl elem).2 =
      if ops.getMinOverlapLength elem.ovr.mtch ≥ g.minOverlap ∧
          isErrorRateAcceptable
            (calcErrorRate g ops pVertex elem.ed.pVertex elem.ovr)
            g.errorRate = true
      then addOverlapsToSetF (createEdges g pVertex elem.ed elem.ovr) ops 1 0
        fuel pVertex elem.ed elem.ovr excl
      else excl) := by
  refine ⟨by simp [excisionStep, hskip], ?_, ?_⟩
  · by_cases h1 : ops.getMinOverlapLength elem.ovr.mtch ≥ g.minOverlap
    · by_cases h2 : isErrorRateAcceptable
          (calcErrorRate g ops pVertex elem.ed.pVertex elem.ovr)
          g.errorRate = true
      · simp only [excisionStep, hgo, Bool.false_eq_true, if_false, if_pos h1,
          if_pos h2]
        simp [createEdges, h1, h2]
      · simp only [excisionStep, hgo, Bool.false_eq_true, if_false, if_pos h1,
          if_neg h2]
        simp [h2]
    · simp only [excisionStep, hgo, Bool.false_eq_true, if_false, if_neg h1]
      simp [h1]
  · by_cases h1 : ops.getMinOverlapLength elem.ovr.mtch ≥ g.minOverlap
    · by_cases h2 : isErrorRateAcceptable
          (calcErrorRate g ops pVertex elem.ed.pVertex elem.ovr)
          g.errorRate = true
      · simp [excisionStep, hgo, h1, h2]
      · simp [excisionStep, hgo, h1, h2]
    · simp [excisionStep, hgo, h1]

theorem excision_step_spec_witness :
    excisionStep cOps 3 0 cG3 [(⟨2, false, false⟩, ⟨0, 2, 3⟩)]
        ⟨⟨2, false, false⟩, ⟨0, 2, 3⟩⟩ =
      (cG3, [(⟨2, false, false⟩, ⟨0, 2, 3⟩)]) ∧
    ((excisionStep cOps 3 0 cG3 [] ⟨⟨2, false, false⟩, ⟨0, 2, 3⟩⟩).1.edges =
        cG3.edges ++ [⟨0, 2, false, false, ⟨0, 2, 3⟩⟩] ↔
      (cOps.getMinOverlapLength (3 : Nat) ≥ cG3.minOverlap ∧
        isErrorRateAcceptable (calcErrorRate cG3 cOps 0 2 ⟨0, 2, 3⟩)
          cG3.errorRate = true)) ∧
    ((excisionStep cOps 3 0 cG3 [] ⟨⟨2, false, false⟩, ⟨0, 2, 3⟩⟩).2 =
      if cOps.getMinOverlapLength (3 : Nat) ≥ cG3.minOverlap ∧
          isErrorRateAcceptable (calcErrorRate cG3 cOps 0 2 ⟨0, 2, 3⟩)
            cG3.errorRate = true
      then addOverlapsToSetF (createEdges cG3 0 ⟨2, false, false⟩ ⟨0, 2, 3⟩)
        cOps 1 0 3 0 ⟨2, false, false⟩ ⟨0, 2, 3⟩ []
      else []) :=
  excision_step_spec cOps 3 0 cG3 [] [(⟨2, false, false⟩, ⟨0, 2, 3⟩)]
    ⟨⟨2, false, false⟩, ⟨0, 2, 3⟩⟩ (by decide) (by decide)

/-! ### Claim C9 -/

theorem excisionStep_frame (ops : MatchOps M Seq) (fuel pVertex : Nat)
    (g : Graph M Seq) (excl : OMap M) (elem : ExploreElement M) :
    (excisionStep ops fuel pVertex g excl elem).1.vertexIds = g.vertexIds ∧
    ∃ l, (excisionStep ops fuel pVertex g excl elem).1.edges = g.edges ++ l := by
  unfold excisionStep
  split
  · exact ⟨rfl, [], by simp⟩
  · split
    · split
      · exact ⟨rfl, [⟨pVertex, elem.ed.pVertex, elem.ed.dir, elem.ed.comp, elem.ovr⟩], rfl⟩
      · exact ⟨rfl, [], by simp⟩
    · exact ⟨rfl, [], by simp⟩

theorem excisionLoop_frame (ops : MatchOps M Seq) (fuel pVertex : Nat) :
    ∀ (n : Nat) (queue : List (ExploreElement M)) (st : Graph M Seq × OMap M),
      (excisionLoop ops fuel pVertex n queue st).1.vertexIds = st.1.vertexIds ∧
      ∃ l, (excisionLoop ops fuel pVertex n queue st).1.edges = st.1.edges ++ l
  | 0, _, st => ⟨rfl, [], by simp [excisionLoop]⟩
  | n + 1, queue, st => by
    rw [excisionLoop]
    cases hq : qSelect (fun e => ovlLen0 ops e.ovr) queue with
    | none => exact ⟨rfl, [], by simp⟩
    | some pr =>
      obtain ⟨currElem, queue'⟩ := pr
      obtain ⟨hstep1, l₁, hstep2⟩ :=
        excisionStep_frame ops fuel pVertex st.1 st.2 currElem
      obtain ⟨hloop1, l₂, hloop2⟩ := excisionLoop_frame ops fuel pVertex n queue'
        (excisionStep ops fuel pVertex st.1 st.2 currElem)
      refine ⟨hloop1.trans hstep1, l₁ ++ l₂, ?_⟩
      rw [hloop2, hstep2, List.append_assoc]

/-- C9: the remodeling operation never deletes a vertex or an edge: its
only mutation of the graph is appending newly created edges, and the
vertex set is unchanged.  (`constructCompleteOverlapMap` and
`constructPartitionedOverlapMap` are embedded as pure functions of the
graph — they return maps and no graph, so they cannot mutate it.) -/
theorem remodel_frame (g : Graph M Seq) (ops : MatchOps M Seq)
    (fuel pVertex : Nat) (pDeleteEdge : Edge M) :
    (remodelVertexForExcision g ops fuel pVertex pDeleteEdge).1.vertexIds =
        g.vertexIds ∧
    ∃ newEdges, (remodelVertexForExcision g ops fuel pVertex pDeleteEdge).1.edges =
        g.edges ++ newEdges := by
  unfold remodelVertexForExcision
  exact excisionLoop_frame ops fuel pVertex _ _ _

theorem aosL_fst (g : Graph M Seq) (ops : MatchOps M Seq) (maxER : Rat)
    (minLength : Int) :
    ∀ (fuel pX : Nat) (edXY : EdgeDesc) (ovrXY : Overlap M)
      (st : OMap M × CallLog M),
      (addOverlapsToSetL g ops maxER minLength fuel pX edXY ovrXY st).1 =
        addOverlapsToSetF g ops maxER minLength fuel pX edXY ovrXY st.1
  | 0, _, _, _, _ => rfl
  | fuel + 1, pX, edXY, ovrXY, st => by
    rw [addOverlapsToSetL, addF_succ]
    refine foldl_rel (fun (st' : OMap M × CallLog M) (m' : OMap M) => st'.1 = m')
      _ _ _ st st.1 rfl ?_
    intro st' m' e he hR
    unfold aosStep
    rw [← hR]
    by_cases h1 : e.endV ≠ pX ∧ omapMem st'.1 (edXZof edXY e) = false
    · rw [if_pos h1, if_pos h1]
      by_cases h2 : hasTransitiveOverlap ops ovrXY e.ovr = true
      · rw [if_pos h2, if_pos h2]
        by_cases h3 : isErrorRateAcceptable
              (calcErrorRate g ops pX e.endV (ovrXZof ops ovrXY e)) maxER = true ∧
            ovlLen0 ops (ovrXZof ops ovrXY e) ≥ minLength
        · rw [if_pos h3, if_pos h3]
          exact aosL_fst g ops maxER minLength fuel pX _ _ _
        · rw [if_neg h3, if_neg h3]
      · rw [if_neg h2, if_neg h2]
    · rw [if_neg h1, if_neg h1]

theorem enqL_fst (g : Graph M Seq) (ops : MatchOps M Seq) :
    ∀ (fuel pX : Nat) (edXY : EdgeDesc) (ovrXY : Overlap M)
      (st : (List (ExploreElement M) × List EdgeDesc) × List (Overlap M × Overlap M)),
      (enqueueEdgesL g ops fuel pX edXY ovrXY st).1 =
        enqueueEdgesF g ops fuel pX edXY ovrXY st.1
  | 0, _, _, _, _ => rfl
  | fuel + 1, pX, edXY, ovrXY, st => by
    rw [enqueueEdgesL, enqF_succ]
    refine foldl_rel
      (fun (st' : (List (ExploreElement M) × List EdgeDesc) × List (Overlap M × Overlap M))
        (qs : List (ExploreElement M) × List EdgeDesc) => st'.1 = qs)
      _ _ _ st st.1 rfl ?_
    intro st' qs e he hR
    unfold enqStep
    rw [← hR]
    by_cases h1 : e.endV ≠ pX
    · rw [if_pos h1, if_pos h1]
      by_cases h2 : sMem st'.1.2 (edXZof edXY e) = false
      · rw [if_pos h2, if_pos h2]
        by_cases h3 : hasTransitiveOverlap ops ovrXY e.ovr = true
        · rw [if_pos h3, if_pos h3]
          exact enqL_fst g ops fuel pX _ _ _
        · rw [if_neg h3, if_neg h3]
      · rw [if_neg h2, if_neg h2]
    · rw [if_neg h1, if_neg h1]

theorem aosL_infer_guarded (g : Graph M Seq) (ops : MatchOps M Seq)
    (maxER : Rat) (minLength : Int) :
    ∀ (fuel pX : Nat) (edXY : EdgeDesc) (ovrXY : Overlap M)
      (st : OMap M × CallLog M) (pr : Overlap M × Overlap M),
      pr ∈ (addOverlapsToSetL g ops maxER minLength fuel pX edXY ovrXY st).2.inferCalls →
      pr ∈ st.2.inferCalls ∨ hasTransitiveOverlap ops pr.1 pr.2 = true
  | 0, _, _, _, _, _ => fun h => Or.inl h
  | fuel + 1, pX, edXY, ovrXY, st, pr => by
    rw [addOverlapsToSetL]
    intro h
    refine foldl_invariant
      (fun st' => ∀ q ∈ st'.2.inferCalls,
        q ∈ st.2.inferCalls ∨ hasTransitiveOverlap ops q.1 q.2 = true)
      _ _ st (fun q hq => Or.inl hq) ?_ pr h
    intro st' e _ hP q hq
    split at hq
    · split at hq
      · next h2 =>
        split at hq
        · rcases aosL_infer_guarded g ops maxER minLength fuel pX _ _ _ q hq with
            hq' | hq'
          · rcases List.mem_append.mp hq' with hq'' | hq''
            · exact hP q hq''
            · have : q = (ovrXY, e.ovr) := by simpa using hq''
              subst this
              exact Or.inr h2
          · exact Or.inr hq'
        · rcases List.mem_append.mp hq with hq'' | hq''
          · exact hP q hq''
          · have : q = (ovrXY, e.ovr) := by simpa using hq''
            subst this
            exact Or.inr h2
      · exact hP q hq
    · exact hP q hq

theorem enqL_infer_guarded (g : Graph M Seq) (ops : MatchOps M Seq) :
    ∀ (fuel pX : Nat) (edXY : EdgeDesc) (ovrXY : Overlap M)
      (st : (List (ExploreElement M) × List EdgeDesc) × List (Overlap M × Overlap M))
      (pr : Overlap M × Overlap M),
      pr ∈ (enqueueEdgesL g ops fuel pX edXY ovrXY st).2 →
      pr ∈ st.2 ∨ hasTransitiveOverlap ops pr.1 pr.2 = true
  | 0, _, _, _, _, _ => fun h => Or.inl h
  | fuel + 1, pX, edXY, ovrXY, st, pr => by
    rw [enqueueEdgesL]
    intro h
    refine foldl_invariant
      (fun st' => ∀ q ∈ st'.2,
        q ∈ st.2 ∨ hasTransitiveOverlap ops q.1 q.2 = true)
      _ _ st (fun q hq => Or.inl hq) ?_ pr h
    intro st' e _ hP q hq
    split at hq
    · split at hq
      · split at hq
        · next h3 =>
          rcases enqL_infer_guarded g ops fuel pX _ _ _ q hq with hq' | hq'
          · rcases List.mem_append.mp hq' with hq'' | hq''
            · exact hP q hq''
            · have : q = (ovrXY, e.ovr) := by simpa using hq''
              subst this
              exact Or.inr h3
          · exact Or.inr hq'
        · exact hP q hq
      · exact hP q hq
    · exact hP q hq

/-! ### Claim C4 -/

/-- C4 counterexample: in the partition scan, `inferTransitiveOverlap`
is invoked with no `hasTransitiveOverlap` guard.  With an algebra in
which no matches intersect, the very first pop of
`constructPartitionedOverlapMap`'s queue produces an inference call
whose arguments fail `hasTransitiveOverlap`. -/
theorem partition_infer_unguarded_cex :
    ((scanLoopCalls cG2 cOpsNoInt ⟨1, false, false⟩ ⟨0, 1, 5⟩
          (constructCompleteOverlapMap cG2 cOpsNoInt 3 0 1 0) ⟨[], []⟩).inferCalls.any
        fun pr => !(hasTransitiveOverlap cOpsNoInt pr.1 pr.2)) = true ∧
    qSelect (fun (p : EdgeDesc × Overlap Nat) => ovlLen0 cOpsNoInt p.2)
        (constructCompleteOverlapMap cG2 cOpsNoInt 3 0 1 0) =
      some ((⟨1, false, false⟩, ⟨0, 1, 5⟩), [(⟨2, false, false⟩, ⟨0, 2, 3⟩)]) := by
  decide

/-- C4 (amended): `addOverlapsToSet` and `enqueueEdges` invoke
`inferTransitiveOverlap` only on argument pairs satisfying
`hasTransitiveOverlap`; the scan of `constructPartitionedOverlapMap`,
however, invokes it unguarded, and there are executions in which the
arguments do not intersect. -/
theorem infer_calls_guarded (g : Graph M Seq) (ops : MatchOps M Seq)
    (maxER : Rat) (minLength : Int) (fuel pX pX' : Nat)
    (edXY edXY' : EdgeDesc) (ovrXY ovrXY' : Overlap M)
    (st : OMap M × CallLog M)
    (st' : (List (ExploreElement M) × List EdgeDesc) × List (Overlap M × Overlap M)) :
    (∀ pr ∈ (addOverlapsToSetL g ops maxER minLength fuel pX edXY ovrXY st).2.inferCalls,
        pr ∈ st.2.inferCalls ∨ hasTransitiveOverlap ops pr.1 pr.2 = true) ∧
    (∀ pr ∈ (enqueueEdgesL g ops fuel pX' edXY' ovrXY' st').2,
        pr ∈ st'.2 ∨ hasTransitiveOverlap ops pr.1 pr.2 = true) ∧
    ((scanLoopCalls cG2 cOpsNoInt ⟨1, false, false⟩ ⟨0, 1, 5⟩
          (constructCompleteOverlapMap cG2 cOpsNoInt 3 0 1 0) ⟨[], []⟩).inferCalls.any
        fun pr => !(hasTransitiveOverlap cOpsNoInt pr.1 pr.2)) = true :=
  ⟨fun pr h => aosL_infer_guarded g ops maxER minLength fuel pX edXY ovrXY st pr h,
   fun pr h => enqL_infer_guarded g ops fuel pX' edXY' ovrXY' st' pr h,
   by decide⟩

theorem infer_calls_guarded_witness :
    ((⟨0, 1, 5⟩, ⟨1, 2, 3⟩) : Overlap Nat × Overlap Nat) ∈
        (([], ⟨[], []⟩) : OMap Nat × CallLog Nat).2.inferCalls ∨
      hasTransitiveOverlap cOps (⟨0, 1, 5⟩ : Overlap Nat) ⟨1, 2, 3⟩ = true :=
  (infer_calls_guarded cG3 cOps 1 0 3 0 0 ⟨1, false, false⟩ ⟨1, false, false⟩
      ⟨0, 1, 5⟩ ⟨0, 1, 5⟩ ([], ⟨[], []⟩) (([], []), [])).1
    (⟨0, 1, 5⟩, ⟨1, 2, 3⟩) (by decide)

/-! ### Claim C5 -/

/-- C5 counterexample: `calcErrorRate` is reached by `addOverlapsToSet`
(as called by `remodelVertexForExcision`, with thresholds 1.0 and 0)
on an inferred alignment of length 0: the length threshold is tested
only after the error rate has been computed. -/
theorem calcErrorRate_zero_length_call_cex :
    ((addOverlapsToSetL cG3 cOpsZero 1 0 3 0 ⟨1, false, false⟩ ⟨0, 1, 5⟩
          ([(⟨1, false, false⟩, ⟨0, 1, 5⟩)], ⟨[], []⟩)).2.erCalls.any
        fun o => cOpsZero.getMinOverlapLength o.mtch == 0) = true := by
  decide

/-- C5 (amended): `calcErrorRate` divides the difference count by the
alignment's shorter-side length, but its callers do not enforce a
minimum alignment length before calling — the length threshold is
tested only after the error rate is computed — so a zero-length
alignment can reach the division. -/
theorem calcErrorRate_division_unguarded (g : Graph M Seq)
    (ops : MatchOps M Seq) (pX pY : Nat) (o : Overlap M) :
    calcErrorRate g ops pX pY o =
        ((ops.countDifferences o.mtch (g.seqOf pX) (g.seqOf pY) : Int) : Rat) /
          ((ops.getMinOverlapLength o.mtch : Int) : Rat) ∧
    ((addOverlapsToSetL cG3 cOpsZero 1 0 3 0 ⟨1, false, false⟩ ⟨0, 1, 5⟩
          ([], ⟨[], []⟩)).2.erCalls.any
        fun o => cOpsZero.getMinOverlapLength o.mtch == 0) = true :=
  ⟨calcErrorRate_eq_div g ops pX pY o, by decide⟩

end SGA
